import Mathlib

/-!
A verification development for the lunr.ts full-text search engine core.

The TypeScript sources are shallowly embedded: node graphs with mutation and
sharing (the token-set automata) become explicit stores of nodes addressed by
numeric ids, mirroring the JavaScript object heap; worklist `while` loops
become fuel-indexed recursions; JavaScript strings become `List Char`;
fallible code returns `Except`.  Operation names follow the source
(`TokenSet.fromString`, `TokenSetBuilder.insert`, ...).
-/

namespace Lunr

/-- A token-set automaton node: a finality flag plus labelled edges to child
nodes, identified by numeric id (mirroring object references in the source).
Edges are kept in insertion order, as JavaScript object keys are; `strCache`
mirrors the `_str` cached canonical key. -/
structure TSNode where
  final : Bool := false
  edges : List (Char × Nat) := []
  strCache : Option (List Char) := none
deriving Repr, DecidableEq, Inhabited

/-- The heap of token-set nodes.  A node created `i`-th has id `i + 1`,
mirroring the auto-incrementing `TokenSet._nextId` counter that starts at 1
in a fresh process. -/
structure Store where
  nodes : List TSNode := []
deriving Repr, DecidableEq, Inhabited

namespace Store

/-- Dereference a node id (JavaScript object dereference). -/
def get (s : Store) (id : Nat) : TSNode :=
  s.nodes.getD (id - 1) default

/-- Allocate a fresh node (`new TokenSet()`): its id is the next counter
value. -/
def newNode (s : Store) : Store × Nat :=
  (⟨s.nodes ++ [{ : TSNode}]⟩, s.nodes.length + 1)

/-- Replace the node stored at an id. -/
def set (s : Store) (id : Nat) (n : TSNode) : Store :=
  ⟨s.nodes.set (id - 1) n⟩

/-- `node.final = b` -/
def setFinal (s : Store) (id : Nat) (b : Bool) : Store :=
  s.set id { s.get id with final := b }

/-- `node._str = k` (the builder caches canonical keys). -/
def setCache (s : Store) (id : Nat) (k : List Char) : Store :=
  s.set id { s.get id with strCache := some k }

end Store

/-- Look up the edge labelled `c` (`node.edges[c]`). -/
def edgeLookup (n : TSNode) (c : Char) : Option Nat :=
  (n.edges.find? (fun e => e.1 = c)).map (·.2)

/-- `node.edges[c] = child`: JavaScript assignment overwrites in place if the
key exists, otherwise appends. -/
def edgesAssign (es : List (Char × Nat)) (c : Char) (child : Nat) : List (Char × Nat) :=
  match es with
  | [] => [(c, child)]
  | (c', ch') :: rest =>
    if c' = c then (c', child) :: rest else (c', ch') :: edgesAssign rest c child

/-- `parent.edges[c] = child` on the store. -/
def Store.setEdge (s : Store) (id : Nat) (c : Char) (child : Nat) : Store :=
  let n := s.get id
  s.set id { n with edges := edgesAssign n.edges c child }

namespace TokenSet

/-- The loop body of `TokenSet.fromString`: walk the characters, appending a
node per character; a `*` introduces a self-referencing edge and does not
advance.  `final` is true exactly on the last character. -/
def fromStringLoop (s : Store) (node : Nat) : List Char → Store
  | [] => s
  | c :: rest =>
    let final := rest.isEmpty
    if c = '*' then
      let s := s.setEdge node c node
      let s := s.setFinal node final
      fromStringLoop s node rest
    else
      let (s, next) := s.newNode
      let s := s.setFinal next final
      let s := s.setEdge node c next
      fromStringLoop s next rest

/-- `TokenSet.fromString(str)`: returns the updated store and the root id. -/
def fromString (s : Store) (str : List Char) : Store × Nat :=
  let (s, root) := s.newNode
  (fromStringLoop s root str, root)

/-- A frame of the `intersect` worklist: `(qNode, output, node)`. -/
structure IFrame where
  qNode : Nat
  output : Nat
  node : Nat
deriving Repr, DecidableEq, Inhabited

/-- Process one admitted `(nEdge, qEdge)` pair inside `intersect`: fetch or
create the output child under label `nEdge`, OR-ing finality, and push the
next frame. -/
def intersectPair (s : Store) (f : IFrame) (acc : List IFrame)
    (qEdge : Char × Nat) (nEdge : Char × Nat) : Store × List IFrame :=
  let node := nEdge.2
  let qNode := qEdge.2
  let final := (s.get node).final && (s.get qNode).final
  match edgeLookup (s.get f.output) nEdge.1 with
  | some next =>
    let s := s.setFinal next ((s.get next).final || final)
    (s, acc ++ [⟨qNode, next, node⟩])
  | none =>
    let (s, next) := s.newNode
    let s := s.setFinal next final
    let s := s.setEdge f.output nEdge.1 next
    (s, acc ++ [⟨qNode, next, node⟩])

/-- One `intersect` worklist step: iterate query edges × node edges and admit
the pair when `nEdge == qEdge || qEdge == '*'`. -/
def intersectStep (s : Store) (f : IFrame) : Store × List IFrame :=
  let qEdges := (s.get f.qNode).edges
  let nEdges := (s.get f.node).edges
  qEdges.foldl
    (fun (st : Store × List IFrame) qEdge =>
      nEdges.foldl
        (fun (st : Store × List IFrame) nEdge =>
          if nEdge.1 = qEdge.1 ∨ qEdge.1 = '*' then
            intersectPair st.1 f st.2 qEdge nEdge
          else st)
        st)
    (s, [])

/-- The `intersect` worklist (`while (stack.length)`), fuel-indexed; frames
pushed in one step are popped most-recent-first. -/
def intersectLoop : Nat → Store → List IFrame → Store
  | 0, s, _ => s
  | _ + 1, s, [] => s
  | fuel + 1, s, f :: rest =>
    let (s, fs) := intersectStep s f
    intersectLoop fuel s (fs.reverse ++ rest)

/-- `a.intersect(b)`: a fresh output root, then the worklist from the two
roots.  Returns the updated store and the output root id. -/
def intersect (fuel : Nat) (s : Store) (thisId b : Nat) : Store × Nat :=
  let (s, output) := s.newNode
  (intersectLoop fuel s [⟨b, output, thisId⟩], output)

/-- The `toArray` DFS (`while (stack.length)`), fuel-indexed: collect the
prefix at every final node, pushing children most-recent-first. -/
def toArrayLoop : Nat → Store → List (List Char × Nat) → List (List Char) → List (List Char)
  | 0, _, _, acc => acc
  | _ + 1, _, [], acc => acc
  | fuel + 1, s, (pfx, id) :: rest, acc =>
    let n := s.get id
    let acc := if n.final then acc ++ [pfx] else acc
    let pushes := n.edges.map (fun e => (pfx ++ [e.1], e.2))
    toArrayLoop fuel s (pushes.reverse ++ rest) acc

/-- `tokenSet.toArray()` on node `id`. -/
def toArray (fuel : Nat) (s : Store) (id : Nat) : List (List Char) :=
  toArrayLoop fuel s [([], id)] []

end TokenSet

/-- Insertion sort of edge labels, the `Object.keys(this.edges).sort()` in
`TokenSet.toString` (single-character keys sort by UTF-16 code unit). -/
def insertLabel (c : Char) : List Char → List Char
  | [] => [c]
  | d :: rest => if c ≤ d then c :: d :: rest else d :: insertLabel c rest

/-- Sorted edge labels of a node. -/
def sortedLabels (n : TSNode) : List Char :=
  n.edges.foldr (fun e acc => insertLabel e.1 acc) []

/-- `tokenSet.toString()`: the canonical key `finality-bit (label childId)*`
with labels in sorted order and child ids rendered in decimal, honouring the
`_str` cache. -/
def Store.nodeKey (s : Store) (id : Nat) : List Char :=
  let n := s.get id
  match n.strCache with
  | some k => k
  | none =>
    (if n.final then '1' else '0') ::
      (sortedLabels n).foldr
        (fun l acc => l :: (Nat.toDigits 10 ((edgeLookup n l).getD 0) ++ acc)) []

/-- An entry of the builder's `uncheckedNodes` frontier stack. -/
structure UncheckedEntry where
  parent : Nat
  char : Char
  child : Nat
deriving Repr, DecidableEq, Inhabited

/-- The incremental minimising builder over a sorted vocabulary. -/
structure TokenSetBuilder where
  store : Store
  previousWord : List Char := []
  root : Nat
  uncheckedNodes : List UncheckedEntry := []
  minimizedNodes : List (List Char × Nat) := []
deriving Repr, Inhabited

namespace TokenSetBuilder

/-- `new TokenSetBuilder()`: allocates the root node. -/
def new (s : Store) : TokenSetBuilder :=
  let (s, root) := s.newNode
  { store := s, root := root }

/-- Processing of one popped frontier entry inside `minimize`: compute the
child's canonical key; redirect the parent edge to an already-minimised node
with the same key, else cache the key on the child and record it. -/
def minimizeStep (acc : Store × List (List Char × Nat)) (e : UncheckedEntry) :
    Store × List (List Char × Nat) :=
  let (s, minzd) := acc
  let childKey := s.nodeKey e.child
  match minzd.find? (fun kv => kv.1 = childKey) with
  | some kv => (s.setEdge e.parent e.char kv.2, minzd)
  | none => (s.setCache e.child childKey, minzd ++ [(childKey, e.child)])

/-- `builder.minimize(downTo)`: pop frontier entries, deepest first, down to
depth `downTo`. -/
def minimize (b : TokenSetBuilder) (downTo : Nat) : TokenSetBuilder :=
  let popped := (b.uncheckedNodes.drop downTo).reverse
  let (store, minzd) := popped.foldl minimizeStep (b.store, b.minimizedNodes)
  { b with store := store, minimizedNodes := minzd,
           uncheckedNodes := b.uncheckedNodes.take downTo }

/-- JavaScript string `<` on code units. -/
def ltStr : List Char → List Char → Bool
  | [], [] => false
  | [], _ :: _ => true
  | _ :: _, [] => false
  | a :: as, b :: bs => if a < b then true else if b < a then false else ltStr as bs

/-- Length of the common prefix of two words. -/
def commonPfxLen : List Char → List Char → Nat
  | a :: as, b :: bs => if a = b then commonPfxLen as bs + 1 else 0
  | _, _ => 0

/-- The node-extension loop of `insert`: one fresh node per remaining
character, each pushed onto the frontier stack. -/
def extendLoop (s : Store) (un : List UncheckedEntry) (node : Nat) :
    List Char → Store × List UncheckedEntry × Nat
  | [] => (s, un, node)
  | c :: rest =>
    let (s, next) := s.newNode
    let s := s.setEdge node c next
    extendLoop s (un ++ [⟨node, c, next⟩]) next rest

/-- `builder.insert(word)`: fails with the ordering error when
`word < previousWord`; otherwise minimises down to the common prefix and
extends from the deepest unchecked node, marking the last node final. -/
def insert (b : TokenSetBuilder) (word : List Char) : Except String TokenSetBuilder :=
  if ltStr word b.previousWord then .error "Out of order word insertion"
  else
    let cp := commonPfxLen word b.previousWord
    let b := b.minimize cp
    let node :=
      match b.uncheckedNodes.getLast? with
      | none => b.root
      | some e => e.child
    let (store, unchecked, last) := extendLoop b.store b.uncheckedNodes node (word.drop cp)
    .ok { b with store := store.setFinal last true,
                 uncheckedNodes := unchecked, previousWord := word }

/-- `builder.finish()` -/
def finish (b : TokenSetBuilder) : TokenSetBuilder :=
  b.minimize 0

end TokenSetBuilder

/-- `TokenSet.fromArray(arr)`: insert each word in order, then finish;
returns the store and the root id. -/
def TokenSet.fromArray (s : Store) (arr : List (List Char)) : Except String (Store × Nat) := do
  let b ← arr.foldlM TokenSetBuilder.insert (TokenSetBuilder.new s)
  let b := b.finish
  .ok (b.store, b.root)

namespace TokenSet

/-- A frame of the `fromFuzzyString` worklist. -/
structure FFrame where
  node : Nat
  editsRemaining : Nat
  str : List Char
deriving Repr, DecidableEq, Inhabited

/-- Fetch the edge labelled `c` from `node`, creating a fresh child when
absent (the reuse-or-create idiom of `fromFuzzyString`). -/
def fetchOrCreate (s : Store) (node : Nat) (c : Char) : Store × Nat :=
  match edgeLookup (s.get node) c with
  | some child => (s, child)
  | none =>
    let (s, child) := s.newNode
    (s.setEdge node c child, child)

/-- One `fromFuzzyString` worklist step, in source order: no-edit, then (when
budget remains) insertion, deletion, the final-deletion shortcut, substitution
and transposition.  Returns the store and the frames pushed, in push order. -/
def fuzzStep (s : Store) (f : FFrame) : Store × List FFrame :=
  -- no edit
  let (s, pushes) :=
    match f.str with
    | [] => (s, ([] : List FFrame))
    | c :: rest =>
      let (s, noEditNode) := fetchOrCreate s f.node c
      let s := if rest.isEmpty then s.setFinal noEditNode true else s
      (s, [⟨noEditNode, f.editsRemaining, rest⟩])
  match f.editsRemaining with
  | 0 => (s, pushes)
  | er + 1 =>
    -- insertion
    let (s, insertionNode) := fetchOrCreate s f.node '*'
    let s := if f.str.isEmpty then s.setFinal insertionNode true else s
    let pushes := pushes ++ [⟨insertionNode, er, f.str⟩]
    -- deletion (more than one character left)
    let pushes :=
      if f.str.length > 1 then pushes ++ [⟨f.node, er, f.str.tail⟩] else pushes
    -- deletion of the last character
    let s := if f.str.length = 1 then s.setFinal f.node true else s
    -- substitution
    let (s, pushes) :=
      if f.str.length ≥ 1 then
        let (s, substitutionNode) := fetchOrCreate s f.node '*'
        let s := if f.str.length = 1 then s.setFinal substitutionNode true else s
        (s, pushes ++ [⟨substitutionNode, er, f.str.tail⟩])
      else (s, pushes)
    -- transposition
    match f.str with
    | charA :: charB :: rest =>
      let (s, transposeNode) := fetchOrCreate s f.node charB
      let s := if f.str.length = 1 then s.setFinal transposeNode true else s
      (s, pushes ++ [⟨transposeNode, er, charA :: rest⟩])
    | _ => (s, pushes)

/-- The `fromFuzzyString` worklist loop, fuel-indexed LIFO. -/
def fuzzLoop : Nat → Store → List FFrame → Store
  | 0, s, _ => s
  | _ + 1, s, [] => s
  | fuel + 1, s, f :: rest =>
    let (s, fs) := fuzzStep s f
    fuzzLoop fuel s (fs.reverse ++ rest)

/-- `TokenSet.fromFuzzyString(str, editDistance)`. -/
def fromFuzzyString (fuel : Nat) (s : Store) (str : List Char) (editDistance : Nat) :
    Store × Nat :=
  let (s, root) := s.newNode
  (fuzzLoop fuel s [⟨root, editDistance, str⟩], root)

end TokenSet

/-- Helper for the wildcard semantics: `starFold f w` holds when `f` accepts
some suffix of `w`, i.e. a `*` may swallow any prefix run of `w`. -/
def starFold (f : List Char → Bool) : List Char → Bool
  | [] => f []
  | c :: w' => f (c :: w') || starFold f w'

/-- The wildcard pattern semantics of the specification: each `*` matches any
run of characters, including the empty run; every other character matches
only itself. -/
def patMatches : List Char → List Char → Bool
  | [], w => w.isEmpty
  | c :: p, w =>
    if c = '*' then starFold (patMatches p) w
    else
      match w with
      | [] => false
      | d :: w' => c = d && patMatches p w'

/-- Strict lexicographic ascending order of a vocabulary. -/
def strictlySortedStr : List (List Char) → Bool
  | a :: b :: rest => TokenSetBuilder.ltStr a b && strictlySortedStr (b :: rest)
  | _ => true

/-- A sorted vocabulary on which the builder's canonical keys collide: during
minimisation the node with edges `1 -> #2, 3 -> #45` and the node with edges
`1 -> #23, 4 -> #5` both stringify to `"012345"`, so the second is redirected
to the first although their languages differ. -/
def V13 : List (List Char) :=
  ["a", "bcde", "bcdf", "cgggggggggggggggz", "dhhhhhhhhhhhhhhhhhhh",
   "dhhhhhhhhhhhhhhhhhhhi", "dhhhhhhhhhhhhhhhhhhhiy",
   "e1", "e3", "e3y", "f1z", "f4e", "f4f"].map String.toList

/-- `fromArray(V13).toArray()`. -/
def V13run : List (List Char) :=
  match TokenSet.fromArray {} V13 with
  | .error _ => []
  | .ok (s, root) => TokenSet.toArray 500 s root

/-- `fromArray(V13).intersect(fromString("f1z")).toArray()`. -/
def C1run : List (List Char) :=
  match TokenSet.fromArray {} V13 with
  | .error _ => ["fromArray failed".toList]
  | .ok (s, root) =>
    let (s, p) := TokenSet.fromString s "f1z".toList
    let (s, o) := TokenSet.intersect 500 s root p
    TokenSet.toArray 500 s o

/-- The pairs of a query edge and a node edge admitted by one `intersect`
step: all pairs drawn from the two edge lists whose labels satisfy
`nEdge == qEdge || qEdge == '*'`. -/
def admittedPairs (qEdges nEdges : List (Char × Nat)) :
    List ((Char × Nat) × (Char × Nat)) :=
  qEdges.flatMap fun qe =>
    (nEdges.filter fun ne => ne.1 = qe.1 ∨ qe.1 = '*').map fun ne => (qe, ne)

/-! ### Sparse vectors

The source stores a vector as one flat array alternating index, value, ...;
after deserialisation both slots may hold numbers or numeric strings.  A
`JsNum` is such a slot: `num q` is the JavaScript number `q`, `str q` is a
numeric string whose `parseFloat` is `q`.  JavaScript numbers are modelled as
rationals. -/

inductive JsNum where
  | num (q : ℚ)
  | str (q : ℚ)
deriving Repr, DecidableEq

/-- The numeric reading of a slot (`parseFloat` on strings). -/
def JsNum.toQ : JsNum → ℚ
  | num q => q
  | str q => q

/-- JavaScript `slot < index` (out-of-range reads are `undefined`, which
compares false; strings coerce numerically). -/
def jsLtNum (a : Option JsNum) (q : ℚ) : Bool :=
  match a with
  | some x => x.toQ < q
  | none => false

/-- JavaScript `slot > index`. -/
def jsGtNum (a : Option JsNum) (q : ℚ) : Bool :=
  match a with
  | some x => q < x.toQ
  | none => false

/-- JavaScript loose equality `slot == index` (numeric coercion). -/
def jsEqNum (a : Option JsNum) (q : ℚ) : Bool :=
  match a with
  | some x => x.toQ = q
  | none => false

/-- JavaScript strict equality `slot === index`: a string never strictly
equals a number. -/
def jsSEqNum (a : Option JsNum) (q : ℚ) : Bool :=
  match a with
  | some (.num x) => x = q
  | _ => false

/-- A sparse vector: the flat element sequence and the `_magnitude` cache. -/
structure Vector where
  _magnitude : ℚ := 0
  elements : List JsNum := []
deriving Repr, DecidableEq

namespace Vector

/-- The tail of `positionForIndex`: compare the element under the pivot with
the sought index and return the slot. -/
def positionPost (el : List JsNum) (index : ℚ) (pivotPoint : Nat) : Nat :=
  let pivotIndex := el[pivotPoint * 2]?
  if jsEqNum pivotIndex index then pivotPoint * 2
  else if jsGtNum pivotIndex index then pivotPoint * 2
  else if jsLtNum pivotIndex index then (pivotPoint + 1) * 2
  else 0

/-- The `while (sliceLength > 1)` binary-search loop of `positionForIndex`.
`stop` is the variable called `end` in the source.  The source `break`s on
strict equality (`===`), so a numeric string is never found by the break.
The fuel covers every terminating run; a run that would loop forever in
JavaScript (a numeric-string index slot equal to the target with more than
one pair in the slice) falls out to `positionPost` instead. -/
def positionLoop (el : List JsNum) (index : ℚ) :
    Nat → Nat → Nat → Nat → Nat
  | 0, _, _, pivotPoint => positionPost el index pivotPoint
  | fuel + 1, start, stop, pivotPoint =>
    if stop - start > 1 then
      let pivotIndex := el[pivotPoint * 2]?
      let start' := if jsLtNum pivotIndex index then pivotPoint else start
      let stop' := if jsGtNum pivotIndex index then pivotPoint else stop
      if jsSEqNum pivotIndex index then positionPost el index pivotPoint
      else
        let sliceLength := stop' - start'
        positionLoop el index fuel start' stop' (start' + sliceLength / 2)
    else positionPost el index pivotPoint

/-- `vector.positionForIndex(index)`. -/
def positionForIndex (v : Vector) (index : ℚ) : Nat :=
  if v.elements.length = 0 then 0
  else
    let stop := v.elements.length / 2
    positionLoop v.elements index (v.elements.length + 1) 0 stop (stop / 2)

/-- `vector.upsert(insertIdx, val, fn)`: invalidate the magnitude cache, find
the position; on a hit apply the merge function to the stored value (when a
merge function is given), otherwise splice `(insertIdx, val)` in. -/
def upsert (v : Vector) (insertIdx : ℚ) (val : ℚ)
    (fn : Option (JsNum → ℚ → JsNum)) : Vector :=
  let v : Vector := { v with _magnitude := 0 }
  let position := v.positionForIndex insertIdx
  if jsEqNum v.elements[position]? insertIdx then
    match fn with
    | some f =>
      let i : JsNum := v.elements.getD (position + 1) (.num 0)
      { v with elements := v.elements.set (position + 1) (f i val) }
    | none => v
  else
    let spliced := v.elements.take position ++ [.num insertIdx, .num val] ++
      v.elements.drop position
    { v with elements := spliced }

/-- The `sumOfSquares` loop of `magnitude`: odd slots, `parseFloat` on
strings. -/
def sumOfSquares : List JsNum → ℚ
  | _ :: v :: rest => v.toQ * v.toQ + sumOfSquares rest
  | _ => 0

/-- The `dot` merge loop over the two flat sequences; the fuel covers every
run (each step discards one pair from one of the lists).  A malformed
odd-length tail contributes its value slot as 0. -/
def dotLoop : Nat → List JsNum → List JsNum → ℚ
  | 0, _, _ => 0
  | fuel + 1, a, b =>
    match a, b with
    | ai :: a1, bj :: b1 =>
      let aVal := ai.toQ
      let bVal := bj.toQ
      if aVal < bVal then dotLoop fuel (a1.drop 1) (bj :: b1)
      else if bVal < aVal then dotLoop fuel (ai :: a1) (b1.drop 1)
      else
        (a1.headD (.num 0)).toQ * (b1.headD (.num 0)).toQ +
          dotLoop fuel (a1.drop 1) (b1.drop 1)
    | _, _ => 0

/-- `vector.dot(otherVector)`. -/
def dot (v w : Vector) : ℚ :=
  dotLoop (v.elements.length + w.elements.length + 1) v.elements w.elements

/-- `vector.magnitude()`, parametrised by the square-root function (scores
are irrational in general; every claim below is independent of `sqrtFn`).
A non-zero cached value is returned as-is. -/
def magnitude (sqrtFn : ℚ → ℚ) (v : Vector) : ℚ :=
  if v._magnitude ≠ 0 then v._magnitude else sqrtFn (sumOfSquares v.elements)

/-- `vector.similarity(otherVector)` is `dot / magnitude || 0`.  The
`|| 0` turns the `0 / 0` `NaN` into 0; the remaining case of a zero
magnitude with a non-zero dot product cannot arise for a genuine square
root, and is also sent to 0 here. -/
def similarity (sqrtFn : ℚ → ℚ) (v w : Vector) : ℚ :=
  let m := magnitude sqrtFn v
  if m = 0 then 0 else dot v w / m

end Vector

/-- The merge function the query executor passes to `upsert`: a string value
is replaced by its `parseFloat` (discarding the new value!), a numeric value
is summed with the new value. -/
def queryVectorMerge : JsNum → ℚ → JsNum
  | .str a, _ => .num a
  | .num a, b => .num (a + b)

/-- Specification-side view of a well-formed sparse vector: a list of
(index, value) pairs.  Flattening it gives the source's flat element
sequence, with every index slot a number. -/
def flatPairs : List (ℚ × JsNum) → List JsNum
  | [] => []
  | (i, a) :: rest => .num i :: a :: flatPairs rest

/-- Strictly ascending indices, the invariant of stored vectors. -/
def pairsSorted (ps : List (ℚ × JsNum)) : Prop :=
  ps.Pairwise (fun p q => p.1 < q.1)

/-- The number of pairs with index strictly below `i`. -/
def countLt (ps : List (ℚ × JsNum)) (i : ℚ) : Nat :=
  ps.countP (fun p => decide (p.1 < i))

/-- The declarative upsert on the pair view: replace the value via the merge
function on a hit, else insert at the sorted position. -/
def upsertPairs (ps : List (ℚ × JsNum)) (i x : ℚ) (f : JsNum → ℚ → JsNum) :
    List (ℚ × JsNum) :=
  match ps with
  | [] => [(i, .num x)]
  | (j, a) :: rest =>
    if j = i then (j, f a x) :: rest
    else if i < j then (i, .num x) :: (j, a) :: rest
    else (j, a) :: upsertPairs rest i x f

theorem flatPairs_getElem_even (ps : List (ℚ × JsNum)) (m : Nat) :
    (flatPairs ps)[2 * m]? = (ps[m]?).map (fun p => JsNum.num p.1) := by
  induction ps generalizing m with
  | nil => simp [flatPairs]
  | cons hd tl ih =>
    obtain ⟨j, a⟩ := hd
    match m with
    | 0 => simp [flatPairs]
    | m + 1 =>
      have h2 : 2 * (m + 1) = 2 * m + 1 + 1 := by ring
      simp only [flatPairs, h2, List.getElem?_cons_succ]
      exact ih m

theorem flatPairs_length (ps : List (ℚ × JsNum)) :
    (flatPairs ps).length = 2 * ps.length := by
  induction ps with
  | nil => rfl
  | cons hd tl ih =>
    obtain ⟨j, a⟩ := hd
    simp [flatPairs, ih]
    ring

/-- A count equals a boundary position when everything before it satisfies
the predicate and nothing from it on does. -/
theorem countP_eq_boundary {α : Type} (l : List α) (p : α → Bool) (k : Nat)
    (hk : k ≤ l.length)
    (h1 : ∀ m (h : m < l.length), m < k → p (l.get ⟨m, h⟩))
    (h2 : ∀ m (h : m < l.length), k ≤ m → ¬ p (l.get ⟨m, h⟩)) :
    l.countP p = k := by
  induction l generalizing k with
  | nil => simp only [List.countP_nil, List.length_nil] at hk ⊢; omega
  | cons x xs ih =>
    match k with
    | 0 =>
      have hx : ¬ p x := h2 0 (by simp) (Nat.le_refl _)
      have : xs.countP p = 0 := by
        apply ih 0 (Nat.zero_le _)
        · intro m h hm; omega
        · intro m h _
          exact h2 (m + 1) (by simpa using Nat.succ_lt_succ h) (Nat.zero_le _)
      simp [List.countP_cons, this, hx]
    | k + 1 =>
      have hx : p x := h1 0 (by simp) (Nat.succ_pos _)
      have : xs.countP p = k := by
        apply ih k (by simpa using hk)
        · intro m h hm
          exact h1 (m + 1) (by simpa using Nat.succ_lt_succ h) (by omega)
        · intro m h hm
          exact h2 (m + 1) (by simpa using Nat.succ_lt_succ h) (by omega)
      simp [List.countP_cons, this, hx]

section PositionCorrect

variable (ps : List (ℚ × JsNum)) (i : ℚ)

/-- Pairwise sortedness, in indexed form. -/
theorem pairsSorted_get (hs : pairsSorted ps) (m m' : Nat)
    (h : m < ps.length) (h' : m' < ps.length) (hmm : m < m') :
    (ps.get ⟨m, h⟩).1 < (ps.get ⟨m', h'⟩).1 := by
  exact List.pairwise_iff_get.mp hs ⟨m, h⟩ ⟨m', h'⟩ hmm

/-- Correctness of the `positionForIndex` binary-search loop on a sorted
pair-view vector: it lands on twice the number of indices below `i`. -/
theorem positionLoop_eq (hs : pairsSorted ps)
    (fuel start stop pivot : Nat)
    (hss : start < stop) (hstop : stop ≤ ps.length)
    (hpiv : pivot = start + (stop - start) / 2)
    (hlow : ∀ m (h : m < ps.length), m < start → (ps.get ⟨m, h⟩).1 < i)
    (hhigh : ∀ m (h : m < ps.length), stop ≤ m → i < (ps.get ⟨m, h⟩).1)
    (hfuel : stop - start ≤ fuel) :
    Vector.positionLoop (flatPairs ps) i fuel start stop pivot =
      2 * countLt ps i := by
  induction fuel generalizing start stop pivot with
  | zero => omega
  | succ fuel ih =>
    have hpivlt : pivot < stop := by omega
    have hpivlen : pivot < ps.length := lt_of_lt_of_le hpivlt hstop
    have hpivge : start ≤ pivot := by omega
    have hget : (flatPairs ps)[pivot * 2]? =
        some (JsNum.num (ps.get ⟨pivot, hpivlen⟩).1) := by
      rw [Nat.mul_comm, flatPairs_getElem_even]
      simp [List.getElem?_eq_getElem hpivlen]
    set pj := (ps.get ⟨pivot, hpivlen⟩).1 with hpj
    have post_eq : pj = i →
        Vector.positionPost (flatPairs ps) i pivot = 2 * countLt ps i := by
      intro heq
      have hcount : countLt ps i = pivot := by
        apply countP_eq_boundary _ _ _ (le_of_lt hpivlen)
        · intro m h hm
          simp only [decide_eq_true_eq]
          exact lt_of_lt_of_le (pairsSorted_get ps hs m pivot h hpivlen hm) (le_of_eq heq)
        · intro m h hm
          simp only [decide_eq_true_eq, not_lt]
          rcases Nat.eq_or_lt_of_le hm with rfl | hlt
          · exact le_of_eq heq.symm
          · exact le_of_lt (heq ▸ pairsSorted_get ps hs pivot m hpivlen h hlt)
      simp only [Vector.positionPost]
      rw [hget]
      simp [jsEqNum, JsNum.toQ, heq, hcount, Nat.mul_comm]
    by_cases hslice : stop - start > 1
    · -- loop body runs
      simp only [Vector.positionLoop]
      rw [if_pos hslice, hget]
      by_cases heq : pj = i
      · rw [if_pos (by simp [jsSEqNum, JsNum.toQ, heq])]
        exact post_eq heq
      · rw [if_neg (by simp [jsSEqNum, JsNum.toQ, heq])]
        rcases lt_trichotomy pj i with hlt | hmid | hgt
        · -- pivot index below target: start moves to pivot
          have hlt2 : jsLtNum (some (JsNum.num pj)) i = true := by
            simp [jsLtNum, JsNum.toQ, hlt]
          have hgt2 : jsGtNum (some (JsNum.num pj)) i = false := by
            simp [jsGtNum, JsNum.toQ]; exact le_of_lt hlt
          rw [hlt2, hgt2]
          simp only [if_true, if_false]
          apply ih pivot stop (pivot + (stop - pivot) / 2) (by omega) hstop rfl
          · intro m h hm
            exact lt_trans (pairsSorted_get ps hs m pivot h hpivlen hm) hlt
          · exact hhigh
          · omega
        · exact absurd hmid heq
        · -- pivot index above target: stop moves to pivot
          have hlt2 : jsLtNum (some (JsNum.num pj)) i = false := by
            simp [jsLtNum, JsNum.toQ]; exact le_of_lt hgt
          have hgt2 : jsGtNum (some (JsNum.num pj)) i = true := by
            simp [jsGtNum, JsNum.toQ, hgt]
          rw [hlt2, hgt2]
          simp only [if_true, if_false]
          apply ih start pivot (start + (pivot - start) / 2) (by omega)
            (le_of_lt hpivlen) rfl hlow
          · intro m h hm
            rcases Nat.eq_or_lt_of_le hm with rfl | hlt3
            · exact hgt
            · exact lt_trans hgt (pairsSorted_get ps hs pivot m hpivlen h hlt3)
          · omega
    · -- slice is exactly 1: fall through to positionPost with pivot = start
      have hone : stop = start + 1 := by omega
      have hps : pivot = start := by omega
      simp only [Vector.positionLoop]
      rw [if_neg hslice]
      subst hps
      by_cases heq : pj = i
      · exact post_eq heq
      · simp only [Vector.positionPost]
        rw [hget]
        rcases lt_trichotomy pj i with hlt | hmid | hgt
        · have hcount : countLt ps i = pivot + 1 := by
            apply countP_eq_boundary _ _ _ (by omega)
            · intro m h hm
              simp only [decide_eq_true_eq]
              rcases Nat.eq_or_lt_of_le (Nat.lt_succ_iff.mp hm) with rfl | hlt3
              · exact hlt
              · exact lt_trans (pairsSorted_get ps hs m pivot h hpivlen hlt3) hlt
            · intro m h hm
              simp only [decide_eq_true_eq, not_lt]
              exact le_of_lt (hhigh m h (by omega))
          simp [jsEqNum, jsGtNum, jsLtNum, JsNum.toQ, heq, not_lt.mpr (le_of_lt hlt), hlt,
            hcount, Nat.mul_comm]
        · exact absurd hmid heq
        · have hcount : countLt ps i = pivot := by
            apply countP_eq_boundary _ _ _ (le_of_lt hpivlen)
            · intro m h hm
              simp only [decide_eq_true_eq]
              exact hlow m h hm
            · intro m h hm
              simp only [decide_eq_true_eq, not_lt]
              rcases Nat.eq_or_lt_of_le hm with rfl | hlt3
              · exact le_of_lt hgt
              · exact le_of_lt (lt_trans hgt (pairsSorted_get ps hs pivot m hpivlen h hlt3))
          simp [jsEqNum, jsGtNum, jsLtNum, JsNum.toQ, heq, hgt, hcount, Nat.mul_comm]

/-- `positionForIndex` on a sorted pair-view vector returns twice the number
of indices strictly below the target. -/
theorem positionForIndex_sorted (hs : pairsSorted ps) (mag : ℚ) :
    (Vector.mk mag (flatPairs ps)).positionForIndex i = 2 * countLt ps i := by
  cases ps with
  | nil => simp [Vector.positionForIndex, flatPairs, countLt]
  | cons p rest =>
    have hlen : (flatPairs (p :: rest)).length = 2 * (p :: rest).length :=
      flatPairs_length _
    have hne : (flatPairs (p :: rest)).length ≠ 0 := by
      rw [hlen]; simp
    simp only [Vector.positionForIndex]
    rw [if_neg hne]
    have hhalf : (flatPairs (p :: rest)).length / 2 = (p :: rest).length := by
      omega
    rw [hhalf]
    refine positionLoop_eq (p :: rest) i hs _ 0 _ _ (by simp) (le_refl _)
      (by omega) ?_ ?_ ?_
    · intro m h hm; omega
    · intro m h hm; omega
    · omega

end PositionCorrect

/-- The list-level content of `upsert` on a sorted pair-view vector: a hit
merges in place, a miss splices the new pair at the sorted position. -/
theorem upsertFlat_core (ps : List (ℚ × JsNum)) (hs : pairsSorted ps)
    (i x : ℚ) (f : JsNum → ℚ → JsNum) :
    (if jsEqNum (flatPairs ps)[2 * countLt ps i]? i = true then
       (flatPairs ps).set (2 * countLt ps i + 1)
         (f ((flatPairs ps).getD (2 * countLt ps i + 1) (.num 0)) x)
     else
       (flatPairs ps).take (2 * countLt ps i) ++ [.num i, .num x] ++
         (flatPairs ps).drop (2 * countLt ps i)) =
      flatPairs (upsertPairs ps i x f) := by
  induction ps with
  | nil => simp [flatPairs, countLt, upsertPairs, jsEqNum]
  | cons hd rest ih =>
    obtain ⟨j, a⟩ := hd
    have hs' : pairsSorted rest := (List.pairwise_cons.mp hs).2
    have hrest : ∀ q ∈ rest, j < q.1 := (List.pairwise_cons.mp hs).1
    by_cases hji : j = i
    · subst hji
      have hc0 : countLt rest j = 0 :=
        List.countP_eq_zero.mpr
          (fun q hq => by simp [not_lt.mpr (le_of_lt (hrest q hq))])
      have hc : countLt ((j, a) :: rest) j = 0 := by
        simp only [countLt, List.countP_cons] at hc0 ⊢
        simp [hc0]
      rw [hc]
      simp [flatPairs, jsEqNum, JsNum.toQ, upsertPairs]
    · by_cases hij : i < j
      · have hc : countLt ((j, a) :: rest) i = 0 := by
          have hc0 : countLt rest i = 0 :=
            List.countP_eq_zero.mpr
              (fun q hq => by
                simp [not_lt.mpr (le_of_lt (lt_trans hij (hrest q hq)))])
          simp only [countLt, List.countP_cons] at hc0 ⊢
          simp [hc0, not_lt.mpr (le_of_lt hij)]
        rw [hc]
        simp [flatPairs, jsEqNum, JsNum.toQ, hji, upsertPairs, hij,
          Ne.symm hji]
      · have hjlt : j < i := lt_of_le_of_ne (not_lt.mp hij) hji
        have hc : countLt ((j, a) :: rest) i = countLt rest i + 1 := by
          simp [countLt, List.countP_cons, hjlt]
        rw [hc]
        have harith : 2 * (countLt rest i + 1) = 2 * countLt rest i + 1 + 1 := by
          ring
        rw [harith]
        simp only [flatPairs, List.getElem?_cons_succ, List.set_cons_succ,
          List.getD, List.get?_cons_succ, List.take_succ_cons, List.drop_succ_cons]
        unfold upsertPairs
        rw [if_neg hji, if_neg hij]
        simp only [flatPairs]
        have := ih hs'
        simp only [List.getD] at this
        rw [← this]
        by_cases hcond :
            jsEqNum (flatPairs rest)[2 * countLt rest i]? i = true
        · simp [hcond]
        · simp only [Bool.not_eq_true] at hcond
          simp [hcond]

/-- `upsert` on a sorted pair-view vector equals the declarative pair-level
upsert; the magnitude cache is reset. -/
theorem Vector.upsert_sorted (ps : List (ℚ × JsNum)) (hs : pairsSorted ps)
    (i x : ℚ) (f : JsNum → ℚ → JsNum) (mag : ℚ) :
    (Vector.mk mag (flatPairs ps)).upsert i x (some f) =
      Vector.mk 0 (flatPairs (upsertPairs ps i x f)) := by
  simp only [Vector.upsert]
  rw [positionForIndex_sorted ps i hs 0]
  have core := upsertFlat_core ps hs i x f
  by_cases hcond : jsEqNum (flatPairs ps)[2 * countLt ps i]? i = true
  · rw [if_pos hcond] at core ⊢
    simp only [Vector.mk.injEq]
    exact ⟨trivial, core⟩
  · simp only [Bool.not_eq_true] at hcond
    rw [if_neg (by simp [hcond])] at core
    rw [if_neg (by simp [hcond])]
    simp only [Vector.mk.injEq]
    exact ⟨trivial, core⟩

/-! ### JavaScript plain-object maps and the Builder averages

Maps created as `{}` inherit `Object.prototype`, so reading a key such as
"constructor" that was never assigned yields an inherited function instead
of `undefined`.  `JsObj` models such maps; maps the source creates with
`Object.create(null)` are modelled as plain association lists elsewhere. -/

/-- The enumerable-by-lookup member names inherited from `Object.prototype`
(reading them on `{}` yields a truthy function), plus `__proto__`. -/
def protoKeys : List (List Char) :=
  ["constructor", "hasOwnProperty", "isPrototypeOf", "propertyIsEnumerable",
   "toLocaleString", "toString", "valueOf", "__defineGetter__",
   "__defineSetter__", "__lookupGetter__", "__lookupSetter__",
   "__proto__"].map String.toList

/-- The result of reading a property from a plain object: an own value, an
inherited `Object.prototype` member, or `undefined`. -/
inductive JsRead (α : Type) where
  | own (a : α)
  | builtin
  | jsUndefined
deriving Repr, DecidableEq

/-- A `{}`-created map: own entries in insertion order.  Assignment is
modelled as creating an own property for every key (the `__proto__` setter
special case plays no role in the claims). -/
structure JsObj (α : Type) where
  entries : List (List Char × α) := []
deriving Repr, DecidableEq

namespace JsObj

/-- Property read, falling back to the prototype chain. -/
def read {α : Type} (o : JsObj α) (k : List Char) : JsRead α :=
  match o.entries.find? (fun e => e.1 = k) with
  | some e => .own e.2
  | none => if k ∈ protoKeys then .builtin else .jsUndefined

/-- Property assignment: overwrite in place or append. -/
def assign {α : Type} (o : JsObj α) (k : List Char) (v : α) : JsObj α :=
  ⟨go o.entries⟩
where
  go : List (List Char × α) → List (List Char × α)
    | [] => [(k, v)]
    | (k', v') :: rest => if k' = k then (k', v) :: rest else (k', v') :: go rest

/-- `Object.keys` / `for ... in` over own enumerable keys, in insertion
order (inherited members are not enumerable). -/
def ownKeys {α : Type} (o : JsObj α) : List (List Char) :=
  o.entries.map (·.1)

end JsObj

/-- `FieldRef`: the pair (documentRef, fieldName) with the cached string
form. -/
structure FieldRef where
  docRef : List Char
  fieldName : List Char
  stringValue : Option (List Char) := none
deriving Repr, DecidableEq

namespace FieldRef

/-- The index of the first `/` in a string, if any. -/
def firstSlash : List Char → Option Nat
  | [] => none
  | c :: rest =>
    if c = '/' then some 0 else (firstSlash rest).map (· + 1)

/-- `fieldRef.toString()`. -/
def toStr (f : FieldRef) : List Char :=
  match f.stringValue with
  | some s => s
  | none => f.fieldName ++ '/' :: f.docRef

/-- `FieldRef.fromString(s)`: split at the first `/`, fail when absent. -/
def fromString (s : List Char) : Except String FieldRef :=
  match firstSlash s with
  | none => .error "malformed field ref string"
  | some n => .ok ⟨s.drop (n + 1), s.take n, some s⟩

end FieldRef

/-- Non-numeric garbage values (`NaN`, or the junk strings produced by
adding to an inherited function) are `none`; genuine numbers are `some`. -/
abbrev JsQ := Option ℚ

/-- JavaScript truthiness of a read during the `x || (x = 0)` initialisation
of the average-length accumulators: a present number is truthy unless 0, the
garbage values arising there are non-empty strings (truthy), an inherited
function is truthy, `undefined` is falsy. -/
def jsTruthy : JsRead JsQ → Bool
  | .own (some q) => q ≠ 0
  | .own none => true
  | .builtin => true
  | .jsUndefined => false

/-- JavaScript `read + q`: a genuine number adds; adding to an inherited
function, to garbage, or to `undefined` produces garbage. -/
def jsAddRead (r : JsRead JsQ) (q : Option ℚ) : JsQ :=
  match r, q with
  | .own (some a), some b => some (a + b)
  | _, _ => none

/-- JavaScript `a / d` on two reads: genuine numbers divide (division by 0
gives an infinity, not a real number); anything else is garbage. -/
def jsDivRead : JsRead JsQ → JsRead JsQ → JsQ
  | .own (some a), .own (some d) => if d = 0 then none else some (a / d)
  | _, _ => none

/-- A document, as the Builder sees it: the stringified reference value and
the extracted per-field values (`doc[fieldName]`; an absent field is
`undefined`). -/
structure LunrDoc where
  refValue : List Char
  fields : List (List Char × List Char) := []
deriving Repr, DecidableEq

/-- `doc[fieldName]`. -/
def LunrDoc.fieldValue (d : LunrDoc) (fieldName : List Char) : Option (List Char) :=
  (d.fields.find? (fun e => e.1 = fieldName)).map (·.2)

/-- The Builder state that the average-field-length claims exercise.
`_fields` is created with `Object.create(null)` and so is a plain ordered
key list; `fieldLengths` and `_documents` are `{}` maps. -/
structure Builder where
  _fields : List (List Char) := []
  _documents : JsObj Unit := {}
  fieldLengths : JsObj ℚ := {}
  documentCount : Nat := 0
  averageFieldLength : JsObj JsQ := {}
deriving Repr

namespace Builder

/-- The per-field body of `add`: extract and process the field value, then
`fieldLengths[ref] = 0; fieldLengths[ref] += terms.length` (the read between
the two writes is the just-assigned own 0, since keys contain `/` and so are
never inherited members). -/
def addField (proc : List Char → List (List Char)) (doc : LunrDoc)
    (b : Builder) (fieldName : List Char) : Builder :=
  let field := doc.fieldValue fieldName
  let terms := match field with | none => [] | some v => proc v
  let fieldRef : FieldRef := { docRef := doc.refValue, fieldName := fieldName }
  let key := fieldRef.toStr
  let fl := b.fieldLengths.assign key 0
  let cur : ℚ := match fl.read key with | .own q => q | _ => 0
  { b with fieldLengths := fl.assign key (cur + (terms.length : ℚ)) }

/-- `builder.add(doc)`, restricted to the state above: store the document
ref, bump the document count, and for every registered field record the
field length.  The tokenizer and index pipeline are abstracted as `proc`
from the extracted field value to the final term list; the tokenizer yields
no tokens for a missing (undefined) value.  The term-frequency and
inverted-index bookkeeping of `add` is not needed by the claims below and is
omitted. -/
def add (proc : List Char → List (List Char)) (b : Builder) (doc : LunrDoc) :
    Builder :=
  let b := { b with
    _documents := b._documents.assign doc.refValue ()
    documentCount := b.documentCount + 1 }
  b._fields.foldl (addField proc doc) b

/-- One step of the accumulation loop in `calculateAverageFieldLengths`,
for one `fieldLengths` key: `x || (x = 0)` then `x += 1` on
`documentsWithField`, and likewise adding the recorded length on
`accumulator`.  A malformed key (no `/`) would throw in the source; the
keys written by `add` always contain `/`. -/
def avgStep (fieldLengths : JsObj ℚ) (acc : JsObj JsQ × JsObj JsQ)
    (fieldRefStr : List Char) : Except String (JsObj JsQ × JsObj JsQ) :=
  let (accumulator, documentsWithField) := acc
  match FieldRef.fromString fieldRefStr with
  | .error e => .error e
  | .ok fieldRef =>
    let field := fieldRef.fieldName
    let documentsWithField :=
      if jsTruthy (documentsWithField.read field) then documentsWithField
      else documentsWithField.assign field (some 0)
    let documentsWithField :=
      documentsWithField.assign field (jsAddRead (documentsWithField.read field) (some 1))
    let accumulator :=
      if jsTruthy (accumulator.read field) then accumulator
      else accumulator.assign field (some 0)
    let lengthRead : Option ℚ :=
      match fieldLengths.read fieldRef.toStr with
      | .own q => some q
      | _ => none
    let accumulator :=
      accumulator.assign field (jsAddRead (accumulator.read field) lengthRead)
    .ok (accumulator, documentsWithField)

/-- `builder.calculateAverageFieldLengths()`. -/
def calculateAverageFieldLengths (b : Builder) : Except String Builder := do
  let (accumulator, documentsWithField) ←
    b.fieldLengths.ownKeys.foldlM (avgStep b.fieldLengths) ({}, {})
  let accumulator :=
    b._fields.foldl
      (fun accumulator fieldName =>
        accumulator.assign fieldName
          (jsDivRead (accumulator.read fieldName)
            (documentsWithField.read fieldName)))
      accumulator
  pure { b with averageFieldLength := accumulator }

end Builder

/-- Split a string on runs of spaces: a concrete stand-in for the default
tokenizer plus an identity pipeline, used by the concrete evaluations. -/
def wsSplit (s : List Char) : List (List Char) :=
  go s []
where
  go : List Char → List Char → List (List Char)
    | [], cur => if cur.isEmpty then [] else [cur.reverse]
    | c :: rest, cur =>
      if c = ' ' then
        if cur.isEmpty then go rest [] else cur.reverse :: go rest []
      else go rest (c :: cur)

namespace JsObj

theorem assign_go_self {α : Type} (k : List Char) (v : α)
    (l : List (List Char × α)) :
    (assign.go k v l).find? (fun e => e.1 = k) = some (k, v) := by
  induction l with
  | nil => simp [assign.go, List.find?]
  | cons e rest ih =>
    by_cases h : e.1 = k
    · simp [assign.go, h, List.find?]
    · simpa [assign.go, h, List.find?] using ih

theorem read_assign_self {α : Type} (o : JsObj α) (k : List Char) (v : α) :
    (o.assign k v).read k = .own v := by
  unfold read assign
  simp [assign_go_self]

theorem assign_go_other {α : Type} (k k' : List Char) (v : α)
    (l : List (List Char × α)) (h : k' ≠ k) :
    (assign.go k' v l).find? (fun e => e.1 = k) = l.find? (fun e => e.1 = k) := by
  induction l with
  | nil => simp [assign.go, List.find?, h]
  | cons e rest ih =>
    by_cases he : e.1 = k'
    · simp [assign.go, he, List.find?, h]
    · by_cases hek : e.1 = k
      · obtain ⟨e1, e2⟩ := e
        simp only at he hek
        subst hek
        simp [assign.go, he, List.find?, Ne.symm h]
      · simpa [assign.go, he, List.find?, hek] using ih

theorem read_assign_other {α : Type} (o : JsObj α) (k k' : List Char) (v : α)
    (h : k' ≠ k) : (o.assign k' v).read k = o.read k := by
  unfold read assign
  simp [assign_go_other _ _ _ _ h]

theorem assign_go_twice {α : Type} (k : List Char) (v w : α)
    (l : List (List Char × α)) :
    assign.go k w (assign.go k v l) = assign.go k w l := by
  induction l with
  | nil => simp [assign.go]
  | cons e rest ih =>
    by_cases h : e.1 = k
    · simp [assign.go, h]
    · simp [assign.go, h, ih]

theorem assign_assign_self {α : Type} (o : JsObj α) (k : List Char) (v w : α) :
    (o.assign k v).assign k w = o.assign k w := by
  unfold assign
  simp [assign_go_twice]

theorem assign_go_fresh {α : Type} (k : List Char) (v : α)
    (l : List (List Char × α)) (h : ∀ e ∈ l, e.1 ≠ k) :
    assign.go k v l = l ++ [(k, v)] := by
  induction l with
  | nil => simp [assign.go]
  | cons e rest ih =>
    have he : e.1 ≠ k := h e (by simp)
    simp only [assign.go, if_neg he, List.cons_append, List.cons.injEq, true_and]
    exact ih (fun e' he' => h e' (by simp [he']))

theorem assign_fresh {α : Type} (o : JsObj α) (k : List Char) (v : α)
    (h : ∀ e ∈ o.entries, e.1 ≠ k) :
    (o.assign k v).entries = o.entries ++ [(k, v)] := by
  unfold assign
  simpa using assign_go_fresh k v o.entries h

theorem find_of_mem_nodup {α : Type} (l : List (List Char × α))
    (k : List Char) (v : α) (hnd : (l.map Prod.fst).Nodup) (hmem : (k, v) ∈ l) :
    l.find? (fun e => e.1 = k) = some (k, v) := by
  induction l with
  | nil => simp at hmem
  | cons e rest ih =>
    rw [List.map_cons, List.nodup_cons] at hnd
    rcases List.mem_cons.mp hmem with heq | hmem2
    · subst heq
      simp [List.find?]
    · have hk : e.1 ≠ k := by
        intro h
        exact hnd.1 (h ▸ List.mem_map.mpr ⟨(k, v), hmem2, rfl⟩)
      simpa [List.find?, hk] using ih hnd.2 hmem2

theorem read_of_entries {α : Type} (o : JsObj α) (k : List Char) (v : α)
    (hnd : (o.entries.map Prod.fst).Nodup) (hmem : (k, v) ∈ o.entries) :
    o.read k = .own v := by
  unfold read
  rw [find_of_mem_nodup o.entries k v hnd hmem]

end JsObj

/-- A key `g ++ "/" ++ r` with a slash-free field part splits back at its
first slash. -/
theorem firstSlash_key (g r : List Char) (hg : '/' ∉ g) :
    FieldRef.firstSlash (g ++ '/' :: r) = some g.length := by
  induction g with
  | nil => simp [FieldRef.firstSlash]
  | cons c g2 ih =>
    have hc : c ≠ '/' := fun h => hg (by simp [h])
    have hg2 : '/' ∉ g2 := fun h => hg (by simp [h])
    simp [FieldRef.firstSlash, hc, ih hg2]

theorem fromString_key (g r : List Char) (hg : '/' ∉ g) :
    FieldRef.fromString (g ++ '/' :: r) = .ok ⟨r, g, some (g ++ '/' :: r)⟩ := by
  unfold FieldRef.fromString
  rw [firstSlash_key g r hg]
  have hsplit : g ++ '/' :: r = (g ++ ['/']) ++ r := by simp
  have hd : (g ++ '/' :: r).drop (g.length + 1) = r := by
    rw [hsplit]
    have hl : g.length + 1 = (g ++ ['/']).length := by simp
    rw [hl, List.drop_left]
  have ht : (g ++ '/' :: r).take g.length = g := List.take_left g ('/' :: r)
  simp [hd, ht]

/-- Key building is injective for slash-free field names. -/
theorem key_inj (g1 g2 r1 r2 : List Char) (h1 : '/' ∉ g1) (h2 : '/' ∉ g2)
    (heq : g1 ++ '/' :: r1 = g2 ++ '/' :: r2) : g1 = g2 ∧ r1 = r2 := by
  have hs1 := firstSlash_key g1 r1 h1
  have hs2 := firstSlash_key g2 r2 h2
  rw [heq, hs2] at hs1
  have hlen : g2.length = g1.length := by simpa using hs1
  have hg : g1 = g2 := by
    have := congrArg (List.take g1.length) heq
    rwa [List.take_left, ← hlen, List.take_left] at this
  subst hg
  exact ⟨rfl, by simpa using heq⟩

/-- The number of terms `add` records for a document under one field. -/
def docLen (proc : List Char → List (List Char)) (d : LunrDoc)
    (g : List Char) : Nat :=
  (match d.fieldValue g with | none => [] | some v => proc v).length

/-- The `fieldLengths` key for a field and a document. -/
def keyOf (g : List Char) (d : LunrDoc) : List Char :=
  g ++ '/' :: d.refValue

/-- The field-name part of a `fieldLengths` key. -/
def keyField (k : List Char) : List Char :=
  k.take ((FieldRef.firstSlash k).getD k.length)

theorem keyField_keyOf (g : List Char) (d : LunrDoc) (hg : '/' ∉ g) :
    keyField (keyOf g d) = g := by
  unfold keyField keyOf
  rw [firstSlash_key g d.refValue hg]
  exact List.take_left g ('/' :: d.refValue)

namespace Builder

theorem addField_entries (proc : List Char → List (List Char)) (d : LunrDoc)
    (b : Builder) (g : List Char)
    (hfresh : ∀ e ∈ b.fieldLengths.entries, e.1 ≠ keyOf g d) :
    (addField proc d b g).fieldLengths.entries =
      b.fieldLengths.entries ++ [(keyOf g d, (0 : ℚ) + (docLen proc d g : ℚ))] ∧
    (addField proc d b g)._fields = b._fields ∧
    (addField proc d b g).documentCount = b.documentCount ∧
    (addField proc d b g).averageFieldLength = b.averageFieldLength := by
  unfold addField
  refine ⟨?_, rfl, rfl, rfl⟩
  have hkey : FieldRef.toStr { docRef := d.refValue, fieldName := g } = keyOf g d := rfl
  simp only [hkey]
  rw [JsObj.read_assign_self]
  rw [JsObj.assign_assign_self]
  rw [JsObj.assign_fresh _ _ _ hfresh]
  rfl

/-- The fold of `addField` over a slash-free, duplicate-free field list with
fresh keys appends one entry per field. -/
theorem addFold_entries (proc : List Char → List (List Char)) (d : LunrDoc)
    (gs : List (List Char)) (b : Builder)
    (hgs : ∀ g ∈ gs, '/' ∉ g) (hnd : gs.Nodup)
    (hfresh : ∀ g ∈ gs, ∀ e ∈ b.fieldLengths.entries, e.1 ≠ keyOf g d) :
    (gs.foldl (addField proc d) b).fieldLengths.entries =
      b.fieldLengths.entries ++
        gs.map (fun g => (keyOf g d, (0 : ℚ) + (docLen proc d g : ℚ))) ∧
    (gs.foldl (addField proc d) b)._fields = b._fields ∧
    (gs.foldl (addField proc d) b).documentCount = b.documentCount ∧
    (gs.foldl (addField proc d) b).averageFieldLength = b.averageFieldLength := by
  induction gs generalizing b with
  | nil => simp
  | cons g rest ih =>
    obtain ⟨he, hf, hc, ha⟩ :=
      addField_entries proc d b g (hfresh g (by simp))
    have hgrest : ∀ g2 ∈ rest, '/' ∉ g2 := fun g2 h2 => hgs g2 (by simp [h2])
    have hndrest : rest.Nodup := (List.nodup_cons.mp hnd).2
    have hfresh2 : ∀ g2 ∈ rest, ∀ e ∈ (addField proc d b g).fieldLengths.entries,
        e.1 ≠ keyOf g2 d := by
      intro g2 h2 e hmem
      rw [he] at hmem
      rcases List.mem_append.mp hmem with hold | hnew
      · exact hfresh g2 (by simp [h2]) e hold
      · simp only [List.mem_singleton] at hnew
        subst hnew
        intro hbad
        have := key_inj g g2 d.refValue d.refValue (hgs g (by simp))
          (hgrest g2 h2) hbad
        exact (List.nodup_cons.mp hnd).1 (this.1 ▸ h2)
    obtain ⟨he2, hf2, hc2, ha2⟩ := ih (addField proc d b g) hgrest hndrest hfresh2
    refine ⟨?_, by rw [List.foldl_cons, hf2, hf], by rw [List.foldl_cons, hc2, hc],
      by rw [List.foldl_cons, ha2, ha]⟩
    rw [List.foldl_cons, he2, he]
    simp

/-- The whole build run over a list of documents: one `fieldLengths` entry
per (document, field) pair, in document-major insertion order. -/
theorem addRun_entries (proc : List Char → List (List Char))
    (fs : List (List Char)) (docs done : List LunrDoc) (b : Builder)
    (hfs : ∀ g ∈ fs, '/' ∉ g) (hnd : fs.Nodup)
    (hrefs : ((done ++ docs).map (·.refValue)).Nodup)
    (hb : b._fields = fs ∧
      b.fieldLengths.entries =
        done.flatMap (fun d => fs.map fun g =>
          (keyOf g d, (0 : ℚ) + (docLen proc d g : ℚ))) ∧
      b.documentCount = done.length ∧
      b.averageFieldLength = {}) :
    (docs.foldl (Builder.add proc) b)._fields = fs ∧
    (docs.foldl (Builder.add proc) b).fieldLengths.entries =
      (done ++ docs).flatMap (fun d => fs.map fun g =>
        (keyOf g d, (0 : ℚ) + (docLen proc d g : ℚ))) ∧
    (docs.foldl (Builder.add proc) b).documentCount = (done ++ docs).length ∧
    (docs.foldl (Builder.add proc) b).averageFieldLength = {} := by
  induction docs generalizing done b with
  | nil => simpa using hb
  | cons d rest ih =>
    obtain ⟨hbf, hbe, hbc, hba⟩ := hb
    have hfresh : ∀ g ∈ fs, ∀ e ∈ b.fieldLengths.entries, e.1 ≠ keyOf g d := by
      intro g hg e hmem hbad
      rw [hbe] at hmem
      obtain ⟨d2, hd2, e2, he2joint, heq⟩ := by
        simpa [List.mem_flatMap, List.mem_map] using hmem
      subst heq
      obtain ⟨hg2, hr2⟩ := key_inj _ _ _ _ (hfs e2 he2joint) (hfs g hg) hbad
      have : d2.refValue ∈ (done.map (·.refValue)) :=
        List.mem_map.mpr ⟨d2, hd2, rfl⟩
      rw [List.map_append] at hrefs
      have hd : d.refValue ∈ (d :: rest).map (·.refValue) := by simp
      exact (List.disjoint_of_nodup_append hrefs) (hr2 ▸ this) hd
    set b1 : Builder := { b with
      _documents := b._documents.assign d.refValue ()
      documentCount := b.documentCount + 1 } with hb1
    have hadd : Builder.add proc b d = fs.foldl (addField proc d) b1 := by
      unfold Builder.add
      have hfld : b1._fields = fs := hbf
      rw [← hfld]
    obtain ⟨he, hf, hc, ha⟩ := addFold_entries proc d fs b1 hfs hnd
      (by intro g hg e hmem; exact hfresh g hg e hmem)
    rw [List.foldl_cons, hadd]
    have hres := ih (done ++ [d]) (fs.foldl (addField proc d) b1)
      (by simpa using hrefs)
      (by
        refine ⟨hf.trans hbf, ?_, ?_, ha.trans hba⟩
        · rw [he]
          simp only [hb1]
          rw [hbe]
          simp [List.flatMap_append]
        · rw [hc]
          simp only [hb1]
          rw [hbc]
          simp)
    simpa using hres

theorem exceptOkBind {ε α β : Type} (x : α) (f : α → Except ε β) :
    (Except.ok x >>= f : Except ε β) = f x := rfl

theorem avgStep_ok (fl : JsObj ℚ) (acc dwf : JsObj JsQ) (g r : List Char)
    (hg : '/' ∉ g) (v : ℚ) (hv : fl.read (g ++ '/' :: r) = .own v) :
    Builder.avgStep fl (acc, dwf) (g ++ '/' :: r) =
      .ok
        (let acc1 := if jsTruthy (acc.read g) then acc else acc.assign g (some 0)
         let acc2 := acc1.assign g (jsAddRead (acc1.read g) (some v))
         let dwf1 := if jsTruthy (dwf.read g) then dwf else dwf.assign g (some 0)
         let dwf2 := dwf1.assign g (jsAddRead (dwf1.read g) (some 1))
         (acc2, dwf2)) := by
  unfold Builder.avgStep
  rw [fromString_key g r hg]
  show Except.ok _ = _
  rw [show FieldRef.toStr ⟨r, g, some (g ++ '/' :: r)⟩ = g ++ '/' :: r from rfl, hv]

/-- Reading back the `x || (x = 0); x += q` bump at its own key, when a
number was stored. -/
theorem bump_read_self_num (o : JsObj JsQ) (g : List Char) (c q : ℚ)
    (h : o.read g = .own (some c)) :
    (let o1 := if jsTruthy (o.read g) then o else o.assign g (some 0)
     (o1.assign g (jsAddRead (o1.read g) (some q))).read g) = .own (some (c + q)) := by
  by_cases hc : c = 0
  · subst hc
    rw [h]
    have ht : jsTruthy (JsRead.own (some (0 : ℚ))) = false := by simp [jsTruthy]
    rw [ht]
    simp only [Bool.false_eq_true, if_false]
    rw [JsObj.read_assign_self, JsObj.read_assign_self]
    simp [jsAddRead]
  · rw [h]
    have ht : jsTruthy (JsRead.own (some c)) = true := by simp [jsTruthy, hc]
    rw [ht]
    simp only [if_true]
    rw [h, JsObj.read_assign_self]
    simp [jsAddRead]

/-- Reading back the bump at its own key when nothing was stored yet. -/
theorem bump_read_self_undef (o : JsObj JsQ) (g : List Char) (q : ℚ)
    (h : o.read g = .jsUndefined) :
    (let o1 := if jsTruthy (o.read g) then o else o.assign g (some 0)
     (o1.assign g (jsAddRead (o1.read g) (some q))).read g) = .own (some (0 + q)) := by
  rw [h]
  have ht : jsTruthy JsRead.jsUndefined = false := by simp [jsTruthy]
  rw [ht]
  simp only [Bool.false_eq_true, if_false]
  rw [JsObj.read_assign_self, JsObj.read_assign_self]
  simp [jsAddRead]

/-- The bump at key `g` does not change the read at a different key. -/
theorem bump_read_other (o : JsObj JsQ) (g f : List Char) (q : Option ℚ)
    (hne : g ≠ f) :
    (let o1 := if jsTruthy (o.read g) then o else o.assign g (some 0)
     (o1.assign g (jsAddRead (o1.read g) q)).read f) = o.read f := by
  by_cases ht : jsTruthy (o.read g)
  · simp only [ht, if_true]
    rw [JsObj.read_assign_other _ _ _ _ hne]
  · simp only [ht, Bool.false_eq_true, if_false]
    rw [JsObj.read_assign_other _ _ _ _ hne, JsObj.read_assign_other _ _ _ _ hne]

/-- Invariant of the accumulation loop of `calculateAverageFieldLengths`,
tracked at one field name `f`: after processing a block of well-formed keys,
`accumulator[f]` holds the partial sum of the recorded lengths of the
`f`-keys and `documentsWithField[f]` their count. -/
theorem avgFold_f (fl : JsObj ℚ) (f : List Char)
    (pairs : List (List Char × ℚ))
    (hread : ∀ p ∈ pairs, fl.read p.1 = .own p.2)
    (hparse : ∀ p ∈ pairs, ∃ g r, p.1 = g ++ '/' :: r ∧ '/' ∉ g)
    (acc dwf : JsObj JsQ) (n : Nat) (S : ℚ) (hS0 : n = 0 → S = 0)
    (hacc : if n = 0 then acc.read f = .jsUndefined else acc.read f = .own (some S))
    (hdwf : if n = 0 then dwf.read f = .jsUndefined else dwf.read f = .own (some (n : ℚ))) :
    ∃ acc2 dwf2,
      (pairs.map Prod.fst).foldlM (Builder.avgStep fl) (acc, dwf) =
        Except.ok (acc2, dwf2) ∧
      ((if n + (pairs.filter (fun p => keyField p.1 = f)).length = 0 then
          acc2.read f = .jsUndefined
        else acc2.read f = .own (some (S +
          ((pairs.filter (fun p => keyField p.1 = f)).map Prod.snd).sum))) ∧
       (if n + (pairs.filter (fun p => keyField p.1 = f)).length = 0 then
          dwf2.read f = .jsUndefined
        else dwf2.read f = .own
          (some ((n + (pairs.filter (fun p => keyField p.1 = f)).length : ℕ) : ℚ)))) := by
  induction pairs generalizing acc dwf n S with
  | nil =>
    refine ⟨acc, dwf, rfl, ?_, ?_⟩
    · simpa using hacc
    · simpa using hdwf
  | cons p rest ih =>
    obtain ⟨k, v⟩ := p
    obtain ⟨g, r, hk, hg⟩ := hparse (k, v) (by simp)
    subst hk
    have hv : fl.read (g ++ '/' :: r) = .own v := by
      simpa using hread (g ++ '/' :: r, v) (by simp)
    have hstep := avgStep_ok fl acc dwf g r hg v hv
    rw [List.map_cons, List.foldlM_cons, hstep]
    simp only [exceptOkBind]
    have hkf : keyField (g ++ '/' :: r) = g := by
      simpa [keyOf] using keyField_keyOf g { refValue := r } hg
    by_cases hgf : g = f
    · subst hgf
      -- an entry for our field: both maps bump at f
      have hrest : ∀ p ∈ rest, fl.read p.1 = .own p.2 :=
        fun p hp => hread p (by simp [hp])
      have hprest : ∀ p ∈ rest, ∃ g2 r2, p.1 = g2 ++ '/' :: r2 ∧ '/' ∉ g2 :=
        fun p hp => hparse p (by simp [hp])
      by_cases hn : n = 0
      · subst hn
        simp only [if_pos rfl] at hacc hdwf
        have haccA := bump_read_self_undef acc g v hacc
        have hdwfA := bump_read_self_undef dwf g 1 hdwf
        simp only at haccA hdwfA
        obtain ⟨acc2, dwf2, hfold, hacc2, hdwf2⟩ := ih hrest hprest _ _ 1 (0 + v)
          (by omega)
          (by simpa using haccA)
          (by
            simp only [if_neg (by omega : ¬ (1 : ℕ) = 0)]
            rw [hdwfA]
            norm_num)
        have hfilt : ((g ++ '/' :: r, v) :: rest).filter
            (fun p => keyField p.1 = g) =
              (g ++ '/' :: r, v) :: rest.filter (fun p => keyField p.1 = g) := by
          simp [List.filter_cons, hkf]
        refine ⟨acc2, dwf2, hfold, ?_, ?_⟩
        · rw [hfilt]
          simp only [List.length_cons, List.map_cons, List.sum_cons]
          rw [if_neg (by omega)]
          rw [if_neg (by omega : ¬ (1 : ℕ) +
            (rest.filter (fun p => keyField p.1 = g)).length = 0)] at hacc2
          rw [hacc2, hS0 rfl]
          congr 2
          ring
        · rw [hfilt]
          simp only [List.length_cons]
          rw [if_neg (by omega)]
          rw [if_neg (by omega : ¬ (1 : ℕ) +
            (rest.filter (fun p => keyField p.1 = g)).length = 0)] at hdwf2
          rw [hdwf2]
          congr 2
          push_cast
          ring
      · simp only [if_neg hn] at hacc hdwf
        have haccA := bump_read_self_num acc g S v hacc
        have hdwfA := bump_read_self_num dwf g (n : ℚ) 1 hdwf
        simp only at haccA hdwfA
        obtain ⟨acc2, dwf2, hfold, hacc2, hdwf2⟩ := ih hrest hprest _ _ (n + 1) (S + v)
          (by omega)
          (by simpa [if_neg (by omega : ¬ n + 1 = 0)] using haccA)
          (by
            simp only [if_neg (by omega : ¬ n + 1 = 0)]
            rw [hdwfA]
            congr 2
            push_cast
            ring)
        have hfilt : ((g ++ '/' :: r, v) :: rest).filter
            (fun p => keyField p.1 = g) =
              (g ++ '/' :: r, v) :: rest.filter (fun p => keyField p.1 = g) := by
          simp [List.filter_cons, hkf]
        refine ⟨acc2, dwf2, hfold, ?_, ?_⟩
        · rw [hfilt]
          simp only [List.length_cons, List.map_cons, List.sum_cons]
          rw [if_neg (by omega)]
          rw [if_neg (by omega : ¬ n + 1 +
            (rest.filter (fun p => keyField p.1 = g)).length = 0)] at hacc2
          rw [hacc2]
          congr 2
          ring
        · rw [hfilt]
          simp only [List.length_cons]
          rw [if_neg (by omega)]
          rw [if_neg (by omega : ¬ n + 1 +
            (rest.filter (fun p => keyField p.1 = g)).length = 0)] at hdwf2
          rw [hdwf2]
          congr 2
          push_cast
          ring
    · -- an entry for another field: the reads at f are untouched
      have haccA := bump_read_other acc g f (some v) hgf
      have hdwfA := bump_read_other dwf g f (some 1) hgf
      simp only at haccA hdwfA
      obtain ⟨acc2, dwf2, hfold, hacc2, hdwf2⟩ :=
        ih (fun p hp => hread p (by simp [hp]))
          (fun p hp => hparse p (by simp [hp])) _ _ n S hS0
          (by rw [haccA]; exact hacc) (by rw [hdwfA]; exact hdwf)
      have hfilt : ((g ++ '/' :: r, v) :: rest).filter
          (fun p => keyField p.1 = f) =
            rest.filter (fun p => keyField p.1 = f) := by
        simp [List.filter_cons, hkf, hgf]
      refine ⟨acc2, dwf2, hfold, ?_, ?_⟩
      · rw [hfilt]
        exact hacc2
      · rw [hfilt]
        exact hdwf2

/-- Folding the division loop of `calculateAverageFieldLengths` over field
names other than `f` leaves the read at `f` unchanged. -/
theorem divFold_preserve (dwf : JsObj JsQ) (fs : List (List Char))
    (f : List Char) (hf : f ∉ fs) (a : JsObj JsQ) :
    (fs.foldl (fun accumulator fieldName =>
        accumulator.assign fieldName
          (jsDivRead (accumulator.read fieldName) (dwf.read fieldName))) a).read f =
      a.read f := by
  induction fs generalizing a with
  | nil => rfl
  | cons g rest ih =>
    rw [List.foldl_cons, ih (fun h => hf (by simp [h]))]
    exact JsObj.read_assign_other _ _ _ _ (fun h => hf (by simp [h]))

/-- The division loop writes `accumulator[f] / documentsWithField[f]` at a
registered field `f` (`_fields` keys are unique). -/
theorem divFold_read (dwf : JsObj JsQ) (fs : List (List Char))
    (f : List Char) (hnd : fs.Nodup) (hf : f ∈ fs) (a : JsObj JsQ) :
    (fs.foldl (fun accumulator fieldName =>
        accumulator.assign fieldName
          (jsDivRead (accumulator.read fieldName) (dwf.read fieldName))) a).read f =
      .own (jsDivRead (a.read f) (dwf.read f)) := by
  induction fs generalizing a with
  | nil => cases hf
  | cons g rest ih =>
    rw [List.foldl_cons]
    obtain ⟨hg, hndr⟩ := List.nodup_cons.mp hnd
    by_cases hgf : f = g
    · subst hgf
      rw [divFold_preserve dwf rest f hg]
      rw [JsObj.read_assign_self]
    · have hfr : f ∈ rest := by
        rcases List.mem_cons.mp hf with h | h
        · exact absurd h hgf
        · exact h
      rw [ih hndr hfr]
      rw [JsObj.read_assign_other _ _ _ _ (Ne.symm hgf)]

/-- The `fieldLengths` keys of a build run are pairwise distinct when field
names are slash-free and unique and document references are unique. -/
theorem entryKeys_nodup (proc : List Char → List (List Char))
    (fs : List (List Char)) (docs : List LunrDoc)
    (hfs : ∀ g ∈ fs, '/' ∉ g) (hnd : fs.Nodup)
    (hrefs : (docs.map (·.refValue)).Nodup) :
    ((docs.flatMap (fun d => fs.map fun g =>
        (keyOf g d, (0 : ℚ) + (docLen proc d g : ℚ)))).map Prod.fst).Nodup := by
  induction docs with
  | nil => simp
  | cons d rest ih =>
    rw [List.map_cons, List.nodup_cons] at hrefs
    rw [List.flatMap_cons, List.map_append, List.nodup_append]
    refine ⟨?_, ih hrefs.2, ?_⟩
    · rw [List.map_map]
      refine List.Nodup.map_on ?_ hnd
      intro g1 h1 g2 h2 heq
      exact (key_inj g1 g2 d.refValue d.refValue (hfs g1 h1) (hfs g2 h2)
        (by simpa [keyOf] using heq)).1
    · intro x hx1 hx2
      rw [List.map_map] at hx1
      obtain ⟨g, hgmem, hxg⟩ := List.mem_map.mp hx1
      obtain ⟨p, hp, hxp⟩ := List.mem_map.mp hx2
      obtain ⟨d2, hd2, hpmem⟩ := List.mem_flatMap.mp hp
      obtain ⟨g2, hg2, hpg⟩ := List.mem_map.mp hpmem
      have hkeys : keyOf g d = keyOf g2 d2 := by
        rw [show keyOf g d = x from hxg, ← hxp, ← hpg]
      have := key_inj g g2 d.refValue d2.refValue (hfs g hgmem) (hfs g2 hg2)
        (by simpa [keyOf] using hkeys)
      exact hrefs.1 (this.2 ▸ List.mem_map.mpr ⟨d2, hd2, rfl⟩)

/-- A field absent from `gs` picks up no entry of one document block. -/
theorem fieldEntries_filter_nil (d : LunrDoc) (f : List Char)
    (gs : List (List Char)) (hgs : ∀ g ∈ gs, '/' ∉ g) (hf : f ∉ gs)
    (X : List Char → ℚ) :
    (gs.map (fun g => (keyOf g d, X g))).filter
      (fun p => keyField p.1 = f) = [] := by
  induction gs with
  | nil => rfl
  | cons g rest ih =>
    have hkf : keyField (keyOf g d) = g := keyField_keyOf g d (hgs g (by simp))
    have hgf : g ≠ f := fun h => hf (by simp [h])
    rw [List.map_cons, List.filter_cons]
    have hcond : (decide (keyField (keyOf g d, X g).1 = f)) = false := by
      simp [hkf, hgf]
    rw [hcond, if_neg (by simp)]
    exact ih (fun g2 h2 => hgs g2 (by simp [h2])) (fun h => hf (by simp [h]))

/-- A registered field picks up exactly one entry per document block. -/
theorem fieldEntries_filter_single (d : LunrDoc) (f : List Char)
    (gs : List (List Char)) (hgs : ∀ g ∈ gs, '/' ∉ g) (hnd : gs.Nodup)
    (hf : f ∈ gs) (X : List Char → ℚ) :
    (gs.map (fun g => (keyOf g d, X g))).filter
      (fun p => keyField p.1 = f) = [(keyOf f d, X f)] := by
  induction gs with
  | nil => cases hf
  | cons g rest ih =>
    obtain ⟨hg, hndr⟩ := List.nodup_cons.mp hnd
    have hkf : keyField (keyOf g d) = g := keyField_keyOf g d (hgs g (by simp))
    have hrest : ∀ g2 ∈ rest, '/' ∉ g2 := fun g2 h2 => hgs g2 (by simp [h2])
    by_cases hgf : g = f
    · subst hgf
      rw [List.map_cons, List.filter_cons]
      have hcond : (decide (keyField (keyOf g d, X g).1 = g)) = true := by
        simp [hkf]
      rw [hcond, if_pos rfl]
      rw [fieldEntries_filter_nil d g rest hrest hg X]
    · have hfr : f ∈ rest := by
        rcases List.mem_cons.mp hf with h | h
        · exact absurd h.symm hgf
        · exact h
      rw [List.map_cons, List.filter_cons]
      have hcond : (decide (keyField (keyOf g d, X g).1 = f)) = false := by
        simp [hkf, hgf]
      rw [hcond, if_neg (by simp)]
      exact ih hrest hndr hfr

/-- Filtering the build-run entries to one registered field keeps exactly
one entry per document. -/
theorem buildEntries_filter (proc : List Char → List (List Char))
    (fs : List (List Char)) (docs : List LunrDoc) (f : List Char)
    (hfs : ∀ g ∈ fs, '/' ∉ g) (hnd : fs.Nodup) (hf : f ∈ fs) :
    (docs.flatMap (fun d => fs.map fun g =>
        (keyOf g d, (0 : ℚ) + (docLen proc d g : ℚ)))).filter
      (fun p => keyField p.1 = f) =
      docs.map (fun d => (keyOf f d, (0 : ℚ) + (docLen proc d f : ℚ))) := by
  induction docs with
  | nil => rfl
  | cons d rest ih =>
    rw [List.flatMap_cons, List.filter_append, ih,
      fieldEntries_filter_single d f fs hfs hnd hf
        (fun g => (0 : ℚ) + (docLen proc d g : ℚ)),
      List.map_cons, List.singleton_append]

/-- What `calculateAverageFieldLengths` actually stores at a registered
clean field name after a build run: the lengths summed over ALL documents
divided by the TOTAL number of documents (every `add` records a length,
zero for a document lacking the field). -/
theorem calcAvg_read (proc : List Char → List (List Char))
    (fs : List (List Char)) (docs : List LunrDoc) (f : List Char)
    (hfs : ∀ g ∈ fs, '/' ∉ g) (hnd : fs.Nodup)
    (hrefs : (docs.map (·.refValue)).Nodup)
    (hf : f ∈ fs) (hfp : f ∉ protoKeys) (hdocs : docs ≠ []) :
    ∃ b2, (docs.foldl (Builder.add proc)
        { _fields := fs }).calculateAverageFieldLengths = .ok b2 ∧
      b2.averageFieldLength.read f =
        .own (some ((docs.map (fun d => (docLen proc d f : ℚ))).sum /
          (docs.length : ℚ))) := by
  obtain ⟨hbf, hbe, hbc, hba⟩ := addRun_entries proc fs docs []
    { _fields := fs } hfs hnd (by simpa using hrefs) ⟨rfl, by simp, rfl, rfl⟩
  simp only [List.nil_append] at hbe hbc
  have hkeys := entryKeys_nodup proc fs docs hfs hnd hrefs
  have hread : ∀ p ∈ docs.flatMap (fun d => fs.map fun g =>
      (keyOf g d, (0 : ℚ) + (docLen proc d g : ℚ))),
      (docs.foldl (Builder.add proc)
        { _fields := fs }).fieldLengths.read p.1 = .own p.2 := by
    intro p hp
    exact JsObj.read_of_entries _ _ _ (by rw [hbe]; exact hkeys)
      (by rw [hbe]; simpa using hp)
  have hparse : ∀ p ∈ docs.flatMap (fun d => fs.map fun g =>
      (keyOf g d, (0 : ℚ) + (docLen proc d g : ℚ))),
      ∃ g r, p.1 = g ++ '/' :: r ∧ '/' ∉ g := by
    intro p hp
    simp only [List.mem_flatMap, List.mem_map] at hp
    obtain ⟨d, hd, g, hg, hpe⟩ := hp
    subst hpe
    exact ⟨g, d.refValue, rfl, hfs g hg⟩
  obtain ⟨acc2, dwf2, hfold, hacc2, hdwf2⟩ := avgFold_f
    (docs.foldl (Builder.add proc) { _fields := fs }).fieldLengths f
    (docs.flatMap fun d => fs.map fun g =>
      (keyOf g d, (0 : ℚ) + (docLen proc d g : ℚ)))
    hread hparse {} {} 0 0 (fun _ => rfl)
    (by simp [JsObj.read, hfp])
    (by simp [JsObj.read, hfp])
  have hfiltEq := buildEntries_filter proc fs docs f hfs hnd hf
  have hne : docs.length ≠ 0 := by
    cases docs with
    | nil => exact absurd rfl hdocs
    | cons _ _ => simp
  rw [hfiltEq] at hacc2 hdwf2
  simp only [List.length_map, List.map_map, Function.comp] at hacc2 hdwf2
  rw [if_neg (by omega)] at hacc2
  rw [if_neg (by omega)] at hdwf2
  refine ⟨{ docs.foldl (Builder.add proc) { _fields := fs } with
      averageFieldLength :=
        (docs.foldl (Builder.add proc) { _fields := fs })._fields.foldl
          (fun accumulator fieldName =>
            accumulator.assign fieldName
              (jsDivRead (accumulator.read fieldName)
                (dwf2.read fieldName))) acc2 }, ?_, ?_⟩
  · unfold calculateAverageFieldLengths
    rw [show (docs.foldl (Builder.add proc)
        { _fields := fs }).fieldLengths.ownKeys =
        (docs.flatMap fun d => fs.map fun g =>
          (keyOf g d, (0 : ℚ) + (docLen proc d g : ℚ))).map Prod.fst from by
      unfold JsObj.ownKeys
      rw [hbe]]
    rw [hfold, exceptOkBind]
    rfl
  · show ((docs.foldl (Builder.add proc) { _fields := fs })._fields.foldl
        (fun accumulator fieldName =>
          accumulator.assign fieldName
            (jsDivRead (accumulator.read fieldName)
              (dwf2.read fieldName))) acc2).read f = _
    rw [hbf, divFold_read dwf2 fs f hnd hf acc2, hacc2, hdwf2]
    simp only [jsDivRead]
    rw [if_neg (by
      simp only [Nat.cast_eq_zero]
      omega)]
    have hmap : (List.map (Prod.snd ∘ fun d =>
        (keyOf f d, (0 : ℚ) + ((docLen proc d f : ℚ)))) docs)
        = List.map (fun d => ((docLen proc d f : ℚ))) docs := by
      refine List.map_congr_left fun a _ => ?_
      simp
    rw [hmap]
    norm_num

/-- The average the C5 claim describes: lengths summed over the documents
HAVING the field, divided by the number of documents having it. -/
def claimAvgFieldLength (proc : List Char → List (List Char))
    (docs : List LunrDoc) (f : List Char) : ℚ :=
  ((docs.filter (fun d => (d.fieldValue f).isSome)).map
      (fun d => (docLen proc d f : ℚ))).sum /
    ((docs.filter (fun d => (d.fieldValue f).isSome)).length : ℚ)

end Builder

/-! ### LunrSet, MatchData, Query and the query executor

The remaining `{}`-created maps of `LunrIndex.query` (`matchingFields`,
`queryVectors`, `termFieldCache`, `requiredMatches`, `prohibitedMatches`,
`matches`) are `JsObj`s; maps the source creates with `Object.create(null)`
(the inverted index, postings, field postings and per-document metadata)
are plain association lists. -/

/-- The `in` operator on a `{}` map: own or inherited membership. -/
def JsObj.inObj {α : Type} (o : JsObj α) (k : List Char) : Bool :=
  match o.read k with
  | .jsUndefined => false
  | _ => true

/-- Read a key known to be own (it came from `Object.keys`). -/
def JsObj.readD {α : Type} (o : JsObj α) (k : List Char) (d : α) : α :=
  match o.read k with
  | .own a => a
  | _ => d

/-- Truthiness of reading a `{}` map holding objects: any object (own or
inherited) is truthy, `undefined` is falsy. -/
def jsTruthyObj {α : Type} : JsRead α → Bool
  | .jsUndefined => false
  | _ => true

/-- Truthiness of reading a `{}` map holding booleans: `false` is falsy, an
inherited member is truthy, `undefined` is falsy. -/
def jsTruthyBool : JsRead Bool → Bool
  | .own b => b
  | .builtin => true
  | .jsUndefined => false

/-- Lookup in an `Object.create(null)` map. -/
def nullFind {α : Type} (m : List (List Char × α)) (k : List Char) :
    Option α :=
  (m.find? (fun e => e.1 = k)).map (·.2)

/-- `LunrSet`: the source compares against the `completeLunrSet` and
`emptyLunrSet` singletons by identity and dispatches to their overriding
methods, so they are separate constructors; an ordinary set carries its
`{}`-backed element map and its length (duplicates counted, as in the
source constructor). -/
inductive LunrSet where
  | complete
  | empty
  | mk (elements : JsObj Bool) (length : Nat)
deriving Repr, DecidableEq

namespace LunrSet

/-- `new LunrSet(elements)`. -/
def fromList (l : List (List Char)) : LunrSet :=
  .mk (l.foldl (fun o e => o.assign e true) {}) l.length

/-- `set.contains(object)` is `!!this.elements[object]`; an inherited
`Object.prototype` member is truthy. -/
def contains : LunrSet → List Char → Bool
  | .complete, _ => true
  | .empty, _ => false
  | .mk els _, k =>
    match els.read k with
    | .own b => b
    | .builtin => true
    | .jsUndefined => false

/-- `set.union(other)`. -/
def union : LunrSet → LunrSet → LunrSet
  | .complete, _ => .complete
  | .empty, other => other
  | .mk _ _, .complete => .complete
  | .mk els len, .empty => .mk els len

  | .mk els _, .mk els2 _ => fromList (els.ownKeys ++ els2.ownKeys)

/-- `set.intersect(other)`: pick the smaller map by length, keep its keys
that are `in` the other map (own or inherited). -/
def intersect : LunrSet → LunrSet → LunrSet
  | .complete, other => other
  | .empty, _ => .empty
  | .mk els len, .complete => .mk els len
  | .mk _ _, .empty => .empty
  | .mk els len, .mk els2 len2 =>
    let (a, b) := if len < len2 then (els, els2) else (els2, els)
    fromList (a.ownKeys.filter (fun e => b.inObj e))

end LunrSet

/-- Match metadata: three levels of `{}` maps (term, then field, then
metadata key) over arrays.  The per-document metadata maps coming from the
inverted index are `Object.create(null)` maps in the source; they enter
here through entry-by-entry copies, so the prototype difference is not
observable in this development. -/
structure MatchData where
  metadata : JsObj (JsObj (JsObj (List ℚ))) := {}
deriving Repr, DecidableEq

namespace MatchData

/-- `new MatchData(term, field, metadata)`: clone the per-document metadata
into a fresh `{}` and store it under `metadata[term][field]`;
`new MatchData()` (both arguments `undefined`) leaves the metadata empty. -/
def make (term field : List Char) (metadata : List (List Char × List ℚ)) :
    MatchData :=
  let clonedMetadata : JsObj (List ℚ) :=
    metadata.foldl (fun o e => o.assign e.1 e.2) {}
  ⟨({} : JsObj _).assign term (({} : JsObj _).assign field clonedMetadata)⟩

/-- Read a slot to extend it: an own map is extended, an `undefined` slot
starts from the fresh map; for an inherited `Object.prototype` member the
source goes on to mutate that shared object in place, a global side effect
outside this model, reported as an error (no theorem below reaches it). -/
def forExtend {α : Type} (o : JsObj α) (k : List Char) (fresh : α) :
    Except String α :=
  match o.read k with
  | .own a => .ok a
  | .jsUndefined => .ok fresh
  | .builtin => .error "prototype member mutated"

/-- `matchData.combine(otherMatchData)`. -/
def combine (md other : MatchData) : Except String MatchData := do
  let meta ← other.metadata.ownKeys.foldlM
    (fun (meta : JsObj (JsObj (JsObj (List ℚ)))) term => do
      let otherTerm := other.metadata.readD term {}
      let thisTerm ← forExtend meta term {}
      let thisTerm2 ← otherTerm.ownKeys.foldlM
        (fun (thisTerm : JsObj (JsObj (List ℚ))) field => do
          let otherField := otherTerm.readD field {}
          let thisField ← forExtend thisTerm field {}
          let thisField2 ← otherField.ownKeys.foldlM
            (fun (tf : JsObj (List ℚ)) key =>
              match tf.read key with
              | .jsUndefined => pure (tf.assign key (otherField.readD key []))
              | .own arr => pure (tf.assign key (arr ++ otherField.readD key []))
              | .builtin =>
                .error "TypeError: concat is not a function")
            thisField
          pure (thisTerm.assign field thisField2))
        thisTerm
      pure (meta.assign term thisTerm2))
    md.metadata
  pure ⟨meta⟩

/-- `matchData.add(term, field, metadata)`: the metadata map is stored
without cloning on the miss paths, and merged key by key (`concat` on a
collision) on the hit path. -/
def add (md : MatchData) (term field : List Char)
    (metadata : List (List Char × List ℚ)) : Except String MatchData := do
  if ¬ md.metadata.inObj term then
    pure ⟨md.metadata.assign term
      (({} : JsObj _).assign field ⟨metadata⟩)⟩
  else do
    let thisTerm ← forExtend md.metadata term {}
    if ¬ thisTerm.inObj field then
      pure ⟨md.metadata.assign term (thisTerm.assign field ⟨metadata⟩)⟩
    else do
      let thisField ← forExtend thisTerm field {}
      let thisField2 ← metadata.foldlM
        (fun (tf : JsObj (List ℚ)) e =>
          match tf.read e.1 with
          | .own arr => pure (tf.assign e.1 (arr ++ e.2))
          | .jsUndefined => pure (tf.assign e.1 e.2)
          | .builtin => .error "TypeError: concat is not a function")
        thisField
      pure ⟨md.metadata.assign term (thisTerm.assign field thisField2)⟩

end MatchData

/-- A normalised or in-progress query clause; absent properties are
`none`.  Presence: 1 optional, 2 required, 3 prohibited; wildcard bits:
1 leading, 2 trailing. -/
structure QueryClause where
  term : Option (List Char) := none
  fields : Option (List (List Char)) := none
  boost : Option ℚ := none
  usePipeline : Option Bool := none
  wildcard : Option Nat := none
  presence : Option Nat := none
  editDistance : Option Int := none
deriving Repr

/-- JavaScript falsiness of a possibly-absent string: `undefined` and the
empty string are falsy. -/
def termFalsy : Option (List Char) → Bool
  | none => true
  | some [] => true
  | some (_ :: _) => false

/-- JavaScript string coercion of a possibly-absent string, as it happens
in `'*' + clause.term`. -/
def termStr : Option (List Char) → List Char
  | none => "undefined".toList
  | some t => t

structure Query where
  clauses : List QueryClause := []
  allFields : List (List Char)
deriving Repr

namespace Query

def new (allFields : List (List Char)) : Query := { allFields }

/-- `query.clause(clause)`: fill in the defaults, apply the automatic
leading/trailing wildcards, and push the clause. -/
def clause (q : Query) (c : QueryClause) : Query :=
  let c := if c.fields = none then { c with fields := some q.allFields } else c
  let c := if c.boost = none then { c with boost := some 1 } else c
  let c := if c.usePipeline = none then { c with usePipeline := some true }
    else c
  let c := if c.wildcard = none then { c with wildcard := some 0 } else c
  let wildcard := c.wildcard.getD 0
  let c :=
    if Nat.land wildcard 1 != 0 &&
        (termFalsy c.term || (c.term.getD []).take 1 != ['*']) then
      { c with term := some ('*' :: termStr c.term) }
    else c
  let c :=
    if Nat.land wildcard 2 != 0 &&
        (termFalsy c.term || (c.term.getD []).getLast? != some '*') then
      { c with term := some (termStr c.term ++ ['*']) }
    else c
  let c := if c.presence = none then { c with presence := some 1 } else c
  { q with clauses := q.clauses ++ [c] }

/-- `query.isNegated()`: every clause has prohibited presence. -/
def isNegated (q : Query) : Bool :=
  q.clauses.all (fun c => c.presence = some 3)

end Query

/-- `TokenSet.fromClause(clause)`. -/
def TokenSet.fromClause (fuel : Nat) (s : Store) (c : QueryClause) :
    Store × Nat :=
  match c.editDistance with
  | some ed =>
    TokenSet.fromFuzzyString fuel s (c.term.getD [])
      (if ed = 0 then 1 else ed).toNat
  | none => TokenSet.fromString s (c.term.getD [])

/-- One inverted-index posting: the term index (`_index`) and, per field,
the matching documents with their metadata (`Object.create(null)` maps,
plain association lists). -/
structure Posting where
  _index : ℚ
  fields : List (List Char × List (List Char × List (List Char × List ℚ)))
deriving Repr

/-- One query result. -/
structure DocMatch where
  ref : List Char
  score : ℚ
  matchData : MatchData
deriving Repr, DecidableEq

/-- The searchable index.  The token-set automaton lives in `store` with
root `tokenRoot`; `pipeline` abstracts `this.pipeline.runString` (the
registered pipeline stack applied to one term). -/
structure LunrIndex where
  fields : List (List Char)
  invertedIndex : List (List Char × Posting)
  fieldVectors : JsObj Vector
  tokenRoot : Nat
  store : Store
  pipeline : List Char → List (List Char)

/-- The mutable locals of the executor that survive across clauses. -/
structure QState where
  store : Store
  queryVectors : JsObj Vector
  matchingFields : JsObj MatchData
  termFieldCache : JsObj Bool
  requiredMatches : JsObj LunrSet
  prohibitedMatches : JsObj LunrSet

/-- Method invocation on a read that must be a set: the source calls
`.union`/`.intersect` on it, which throws on anything else. -/
def asSet : JsRead LunrSet → Except String LunrSet
  | .own s => .ok s
  | _ => .error "TypeError: not a set"

/-- Method invocation on a read that must be a vector. -/
def asVec : JsRead Vector → Except String Vector
  | .own v => .ok v
  | _ => .error "TypeError: not a vector"

/-- Use of a read that must be match data. -/
def asMD : JsRead MatchData → Except String MatchData
  | .own m => .ok m
  | _ => .error "TypeError: not match data"

/-- The body of `for (const field of clause.fields)` inside the
expanded-term loop of the executor. -/
def clauseFieldStep (clause : QueryClause) (expandedTerm : List Char)
    (posting : Posting) (acc : QState × LunrSet) (field : List Char) :
    Except String (QState × LunrSet) := do
  let (st, cm) := acc
  match nullFind posting.fields field with
  | none => .error "TypeError: cannot convert undefined to object"
  | some fieldPosting => do
    let matchingDocumentRefs := fieldPosting.map (·.1)
    let termField := expandedTerm ++ '/' :: field
    let matchingDocumentsSet := LunrSet.fromList matchingDocumentRefs
    let (st, cm) :=
      if clause.presence = some 2 then
        let cm := cm.union matchingDocumentsSet
        let st :=
          if st.requiredMatches.read field = .jsUndefined then
            { st with requiredMatches :=
              st.requiredMatches.assign field .complete }
          else st
        (st, cm)
      else (st, cm)
    if clause.presence = some 3 then do
      let st :=
        if st.prohibitedMatches.read field = .jsUndefined then
          { st with prohibitedMatches :=
            st.prohibitedMatches.assign field .empty }
        else st
      let pm ← asSet (st.prohibitedMatches.read field)
      let pmObj := st.prohibitedMatches.assign field
        (pm.union matchingDocumentsSet)
      pure ({ st with prohibitedMatches := pmObj }, cm)
    else do
      let qv ← asVec (st.queryVectors.read field)
      let boost : ℚ := match clause.boost with
        | some b => if b = 0 then 1 else b
        | none => 1
      let qv := qv.upsert posting._index boost (some queryVectorMerge)
      let st := { st with queryVectors := st.queryVectors.assign field qv }
      if jsTruthyBool (st.termFieldCache.read termField) then
        pure (st, cm)
      else do
        let st ← matchingDocumentRefs.foldlM
          (fun (st : QState) matchingDocumentRef => do
            let matchingFieldRefStr := field ++ '/' :: matchingDocumentRef
            let metadata := (nullFind fieldPosting matchingDocumentRef).getD []
            match st.matchingFields.read matchingFieldRefStr with
            | .jsUndefined =>
              let mfObj := st.matchingFields.assign matchingFieldRefStr
                (MatchData.make expandedTerm field metadata)
              pure { st with matchingFields := mfObj }
            | .own fieldMatch => do
              let fm ← fieldMatch.add expandedTerm field metadata
              pure { st with matchingFields :=
                st.matchingFields.assign matchingFieldRefStr fm }
            | .builtin => .error "TypeError: add is not a function")
          st
        let st := { st with termFieldCache :=
          st.termFieldCache.assign termField true }
        pure (st, cm)

/-- The body of `for (const expandedTerm of expandedTerms)`. -/
def clauseTermStep (idx : LunrIndex) (clause : QueryClause)
    (acc : QState × LunrSet) (expandedTerm : List Char) :
    Except String (QState × LunrSet) := do
  match nullFind idx.invertedIndex expandedTerm with
  | none => .error "TypeError: cannot read properties of undefined"
  | some posting =>
    (clause.fields.getD []).foldlM
      (clauseFieldStep clause expandedTerm posting) acc

/-- The `for (const term of terms)` loop; the returned flag records the
`break` taken when a required term has no expansion. -/
def clauseTermsLoop (fuel : Nat) (idx : LunrIndex) (clause : QueryClause)
    (st : QState) (cm : LunrSet) :
    List (List Char) → Except String (QState × LunrSet × Bool)
  | [] => pure (st, cm, false)
  | term :: rest => do
    let (store, termTokenSet) := TokenSet.fromClause fuel st.store
      { clause with term := some term }
    let (store, inter) :=
      TokenSet.intersect fuel store idx.tokenRoot termTokenSet
    let expandedTerms := TokenSet.toArray fuel store inter
    let st := { st with store := store }
    if expandedTerms.length = 0 ∧ clause.presence = some 2 then
      let rmObj := (clause.fields.getD []).foldl
        (fun (rm : JsObj LunrSet) field => rm.assign field .empty)
        st.requiredMatches
      let st := { st with requiredMatches := rmObj }
      pure (st, cm, true)
    else do
      let (st, cm) ← expandedTerms.foldlM (clauseTermStep idx clause) (st, cm)
      clauseTermsLoop fuel idx clause st cm rest

/-- The body of `for (const clause of query.clauses)`. -/
def clauseStep (fuel : Nat) (idx : LunrIndex) (st : QState)
    (clause : QueryClause) : Except String QState := do
  let terms :=
    if clause.usePipeline.getD false then
      idx.pipeline (clause.term.getD [])
    else [clause.term.getD []]
  let (st, clauseMatches, _brk) ←
    clauseTermsLoop fuel idx clause st LunrSet.empty terms
  if clause.presence = some 2 then
    (clause.fields.getD []).foldlM
      (fun (st : QState) field => do
        let rs ← asSet (st.requiredMatches.read field)
        pure { st with requiredMatches :=
          st.requiredMatches.assign field (rs.intersect clauseMatches) })
      st
  else pure st

/-- `index.query(fn)`.  `sqrtFn` abstracts `Math.sqrt` inside vector
magnitudes; `fn` is the query-builder callback (an exception it throws
propagates out, hence the `Except`). -/
def LunrIndex.query (fuel : Nat) (sqrtFn : ℚ → ℚ) (idx : LunrIndex)
    (fn : Query → Except String Query) : Except String (List DocMatch) := do
  let queryVectors := idx.fields.foldl
    (fun (o : JsObj Vector) field => o.assign field {}) {}
  let query ← fn (Query.new idx.fields)
  let st0 : QState := {
    store := idx.store
    queryVectors := queryVectors
    matchingFields := {}
    termFieldCache := {}
    requiredMatches := {}
    prohibitedMatches := {} }
  let st ← query.clauses.foldlM (clauseStep fuel idx) st0
  let (allRequiredMatches, allProhibitedMatches) ←
    idx.fields.foldlM
      (fun (acc : LunrSet × LunrSet) field => do
        let (req, pro) := acc
        let req ←
          if jsTruthyObj (st.requiredMatches.read field) then do
            let s ← asSet (st.requiredMatches.read field)
            pure (req.intersect s)
          else pure req
        let pro ←
          if jsTruthyObj (st.prohibitedMatches.read field) then do
            let s ← asSet (st.prohibitedMatches.read field)
            pure (pro.union s)
          else pure pro
        pure (req, pro))
      (LunrSet.complete, LunrSet.empty)
  let (matchingFieldRefs, matchingFields) :=
    if query.isNegated then
      (idx.fieldVectors.ownKeys,
        idx.fieldVectors.ownKeys.foldl
          (fun (mf : JsObj MatchData) ref => mf.assign ref {})
          st.matchingFields)
    else (st.matchingFields.ownKeys, st.matchingFields)
  let (results, _matches) ← matchingFieldRefs.foldlM
    (fun (acc : List DocMatch × JsObj DocMatch) fieldRefStr => do
      let (results, matchesObj) := acc
      let fieldRef ← FieldRef.fromString fieldRefStr
      let docRef := fieldRef.docRef
      if ¬ allRequiredMatches.contains docRef then
        pure (results, matchesObj)
      else if allProhibitedMatches.contains docRef then
        pure (results, matchesObj)
      else do
        let fieldVector ← asVec (idx.fieldVectors.read fieldRefStr)
        let qv ← asVec (st.queryVectors.read fieldRef.fieldName)
        let score := Vector.similarity sqrtFn qv fieldVector
        match matchesObj.read docRef with
        | .jsUndefined => do
          let md ← asMD (matchingFields.read fieldRefStr)
          let m : DocMatch := ⟨docRef, score, md⟩
          pure (results ++ [m], matchesObj.assign docRef m)
        | .own docMatch => do
          let md0 ← asMD (matchingFields.read fieldRefStr)
          let md ← docMatch.matchData.combine md0
          let m : DocMatch := ⟨docMatch.ref, docMatch.score + score, md⟩
          -- the entry in `results` and the entry in `matches` are the same
          -- object in the source; the in-place mutation updates both
          pure (results.map (fun r => if r.ref = docRef then m else r),
            matchesObj.assign docRef m)
        | .builtin => .error "TypeError: cannot read matchData of undefined")
    ([], {})
  pure (results.mergeSort (fun a b => decide (b.score ≤ a.score)))

inductive LexType where
  | FIELD | TERM | EDIT_DISTANCE | BOOST | PRESENCE | other (tag : List Char)
deriving Repr, DecidableEq

/-- A lexeme; `startPos`/`endPos` are the source's `start`/`end`. -/
structure Lexeme where
  type : LexType
  str : List Char
  startPos : Nat
  endPos : Nat
deriving Repr

def LexType.name : LexType → List Char
  | .FIELD => "FIELD".toList
  | .TERM => "TERM".toList
  | .EDIT_DISTANCE => "EDIT_DISTANCE".toList
  | .BOOST => "BOOST".toList
  | .PRESENCE => "PRESENCE".toList
  | .other tag => tag

/-- `parseInt(str, 10)`: optional leading whitespace and sign, then
digits; `none` is `NaN`. -/
def jsParseInt (s : List Char) : Option Int :=
  let s := s.dropWhile (fun c => c = ' ')
  let (neg, s) :=
    match s with
    | '-' :: rest => (true, rest)
    | '+' :: rest => (false, rest)
    | _ => (false, s)
  let digits := s.takeWhile Char.isDigit
  if digits.isEmpty then none
  else
    let n := digits.foldl (fun acc c => acc * 10 + (c.toNat - '0'.toNat)) 0
    some (if neg then -(n : Int) else (n : Int))

structure QueryParser where
  currentClause : QueryClause
  lexemeIdx : Nat
  lexemes : List Lexeme
  query : Query

namespace QueryParser

def peekLexeme (p : QueryParser) : Option Lexeme :=
  p.lexemes[p.lexemeIdx]?

def consumeLexeme (p : QueryParser) : Option Lexeme × QueryParser :=
  (p.peekLexeme, { p with lexemeIdx := p.lexemeIdx + 1 })

def nextClause (p : QueryParser) : QueryParser :=
  { p with query := p.query.clause p.currentClause, currentClause := {} }

/-- The parser states (the source's static state functions). -/
inductive PState where
  | clause | presence | field | term | editDist | boost
deriving Repr, DecidableEq

/-- `QueryParser.parseClause`: the default branch reproduces the source's
operator-precedence slip, where `+` binds before `?:` and the whole
concatenation becomes the (truthy) condition, leaving only the
`' with value ...'` arm as the message. -/
def stepClause (p : QueryParser) : Except String (QueryParser × Option PState) :=
  match p.peekLexeme with
  | none => .ok (p, none)
  | some lexeme =>
    match lexeme.type with
    | .PRESENCE => .ok (p, some .presence)
    | .FIELD => .ok (p, some .field)
    | .TERM => .ok (p, some .term)
    | _ =>
      .error (" with value '" ++ lexeme.str.asString ++ "'")

def stepPresence (p : QueryParser) : Except String (QueryParser × Option PState) :=
  match p.consumeLexeme with
  | (none, p) => .ok (p, none)
  | (some lexeme, p) => do
    let p ←
      if lexeme.str = "-".toList then
        .ok { p with currentClause := { p.currentClause with presence := some 3 } }
      else if lexeme.str = "+".toList then
        .ok { p with currentClause := { p.currentClause with presence := some 2 } }
      else
        .error ("unrecognised presence operator'" ++ lexeme.str.asString ++ "'")
    match p.peekLexeme with
    | none => .error "expecting term or field, found nothing"
    | some nextLexeme =>
      match nextLexeme.type with
      | .FIELD => .ok (p, some .field)
      | .TERM => .ok (p, some .term)
      | t => .error ("expecting term or field, found '" ++ t.name.asString ++ "'")

def stepField (p : QueryParser) : Except String (QueryParser × Option PState) :=
  match p.consumeLexeme with
  | (none, p) => .ok (p, none)
  | (some lexeme, p) => do
    if lexeme.str ∉ p.query.allFields then
      .error ("unrecognised field '" ++ lexeme.str.asString ++
        "', possible fields: " ++
        ", ".intercalate (p.query.allFields.map
          (fun f => "'" ++ f.asString ++ "'")))
    else
      let p := { p with currentClause :=
        { p.currentClause with fields := some [lexeme.str] } }
      match p.peekLexeme with
      | none => .error "expecting term, found nothing"
      | some nextLexeme =>
        match nextLexeme.type with
        | .TERM => .ok (p, some .term)
        | t => .error ("expecting term, found '" ++ t.name.asString ++ "'")

def stepTerm (p : QueryParser) : Except String (QueryParser × Option PState) :=
  match p.consumeLexeme with
  | (none, p) => .ok (p, none)
  | (some lexeme, p) =>
    let p := { p with currentClause :=
      { p.currentClause with term := some (lexeme.str.map Char.toLower) } }
    let p :=
      if lexeme.str.contains '*' then
        { p with currentClause :=
          { p.currentClause with usePipeline := some false } }
      else p
    match p.peekLexeme with
    | none => .ok (p.nextClause, none)
    | some nextLexeme =>
      match nextLexeme.type with
      | .TERM => .ok (p.nextClause, some .term)
      | .FIELD => .ok (p.nextClause, some .field)
      | .EDIT_DISTANCE => .ok (p, some .editDist)
      | .BOOST => .ok (p, some .boost)
      | .PRESENCE => .ok (p.nextClause, some .presence)
      | t => .error ("Unexpected lexeme type '" ++ t.name.asString ++ "'")

def stepEditDistance (p : QueryParser) :
    Except String (QueryParser × Option PState) :=
  match p.consumeLexeme with
  | (none, p) => .ok (p, none)
  | (some lexeme, p) =>
    match jsParseInt lexeme.str with
    | none => .error "edit distance must be numeric"
    | some editDistance =>
      let p := { p with currentClause :=
        { p.currentClause with editDistance := some editDistance } }
      match p.peekLexeme with
      | none => .ok (p.nextClause, none)
      | some nextLexeme =>
        match nextLexeme.type with
        | .TERM => .ok (p.nextClause, some .term)
        | .FIELD => .ok (p.nextClause, some .field)
        | .EDIT_DISTANCE => .ok (p, some .editDist)
        | .BOOST => .ok (p, some .boost)
        | .PRESENCE => .ok (p.nextClause, some .presence)
        | t => .error ("Unexpected lexeme type '" ++ t.name.asString ++ "'")

def stepBoost (p : QueryParser) : Except String (QueryParser × Option PState) :=
  match p.consumeLexeme with
  | (none, p) => .ok (p, none)
  | (some lexeme, p) =>
    match jsParseInt lexeme.str with
    | none => .error "boost must be numeric"
    | some boost =>
      let p := { p with currentClause :=
        { p.currentClause with boost := some (boost : ℚ) } }
      match p.peekLexeme with
      | none => .ok (p.nextClause, none)
      | some nextLexeme =>
        match nextLexeme.type with
        | .TERM => .ok (p.nextClause, some .term)
        | .FIELD => .ok (p.nextClause, some .field)
        | .EDIT_DISTANCE => .ok (p, some .editDist)
        | .BOOST => .ok (p, some .boost)
        | .PRESENCE => .ok (p.nextClause, some .presence)
        | t => .error ("Unexpected lexeme type '" ++ t.name.asString ++ "'")

def step : PState → QueryParser → Except String (QueryParser × Option PState)
  | .clause => stepClause
  | .presence => stepPresence
  | .field => stepField
  | .term => stepTerm
  | .editDist => stepEditDistance
  | .boost => stepBoost

/-- The `while (state)` driver.  Every state other than `clause` consumes a
lexeme and `clause` is never returned to, so `lexemes.length + 1` fuel
covers every run. -/
def runLoop : Nat → PState → QueryParser → Except String QueryParser
  | 0, _, p => .ok p
  | fuel + 1, state, p => do
    let (p, next) ← step state p
    match next with
    | none => .ok p
    | some state2 => runLoop fuel state2 p

/-- `new QueryParser(str, query).parse()`, with the lexer abstracted. -/
def parse (lexFn : List Char → List Lexeme) (str : List Char) (q : Query) :
    Except String Query := do
  let lexemes := lexFn str
  let p : QueryParser := {
    currentClause := {}
    lexemeIdx := 0
    lexemes := lexemes
    query := q }
  let p ← runLoop (lexemes.length + 1) .clause p
  pure p.query

end QueryParser

/-- `index.search(queryString)`: run the query parser over the query string
inside a `query` callback. -/
def LunrIndex.search (fuel : Nat) (sqrtFn : ℚ → ℚ)
    (lexFn : List Char → List Lexeme) (idx : LunrIndex)
    (queryString : List Char) : Except String (List DocMatch) :=
  LunrIndex.query fuel sqrtFn idx
    (fun query => QueryParser.parse lexFn queryString query)

/-- A small built index: one document with reference "constructor" whose
"title" field contains the single term "x". -/
def C4idx : LunrIndex :=
  let p := match TokenSet.fromArray {} ["x".toList] with
    | .ok p => p
    | .error _ => ({}, 0)
  { fields := ["title".toList]
    invertedIndex := [("x".toList,
      { _index := 0,
        fields := [("title".toList, [("constructor".toList, [])])] })]
    fieldVectors := ({} : JsObj Vector).assign "title/constructor".toList
      ⟨0, [.num 0, .num 1]⟩
    tokenRoot := p.2
    store := p.1
    pipeline := wsSplit }

/-- A fully prohibited (negated) query: `-z`. -/
def C4fn (q : Query) : Except String Query :=
  .ok (q.clause { term := some "z".toList, presence := some 3 })

section ClaimTheorems

set_option maxRecDepth 4000 in
/-- C1: the claim states that for every lexicographically sorted vocabulary V
and pattern p, `fromArray(V).intersect(fromString(p)).toArray()` equals the
subset of V matched by p.  The claim is right and the code is wrong: on the
sorted vocabulary `V13` the builder's canonical-key collision corrupts the
corpus automaton, so the wildcard-free pattern "f1z", which matches the
vocabulary word "f1z", intersects to the empty set. -/
theorem C1_intersect_misses_matching_word :
    strictlySortedStr V13 = true ∧
    "f1z".toList ∈ V13 ∧
    patMatches "f1z".toList "f1z".toList = true ∧
    C1run = [] := by
  decide

set_option maxRecDepth 4000 in
/-- C3: the claim states that `fromArray(V).toArray()` returns exactly the
words of V for every sorted vocabulary V.  The claim is right and the code is
wrong: on the sorted vocabulary `V13` the canonical keys of two structurally
different nodes collide, the minimisation merges them, and the automaton
loses the word "f1z" while inventing "f1", which is not in V13. -/
theorem C3_fromArray_toArray_wrong_set :
    strictlySortedStr V13 = true ∧
    "f1z".toList ∈ V13 ∧
    "f1z".toList ∉ V13run ∧
    "f1".toList ∈ V13run ∧
    "f1".toList ∉ V13 := by
  decide

/-- C6 counterexample: the claim states that inserting a word that is not
strictly greater than the previous word fails with an ordering error.  Yet
inserting "a" twice succeeds: the code only rejects `word < previousWord`,
so a repeated (equal) word is accepted. -/
theorem C6_equal_word_insert_succeeds :
    (((TokenSetBuilder.new {}).insert "a".toList).bind
      (fun b => b.insert "a".toList)).isOk = true := by
  decide

/-- C6 amended: an insertion into the sorted-vocabulary token-set builder
fails with the ordering error exactly when the word is strictly less than the
previously inserted word; a word equal to the previous word is accepted. -/
theorem C6_amended_insert_error_iff_lt (b : TokenSetBuilder) (w : List Char) :
    b.insert w = .error "Out of order word insertion" ↔
      TokenSetBuilder.ltStr w b.previousWord = true := by
  unfold TokenSetBuilder.insert
  by_cases h : TokenSetBuilder.ltStr w b.previousWord = true
  · simp [h]
  · simp only [Bool.not_eq_true] at h
    simp [h]

/-- A guarded fold is the fold over the filtered list. -/
theorem foldl_guard {α β : Type} (g : β → α → β) (p : α → Prop) [DecidablePred p]
    (l : List α) (init : β) :
    l.foldl (fun st x => if p x then g st x else st) init =
      (l.filter (fun x => decide (p x))).foldl g init := by
  induction l generalizing init with
  | nil => rfl
  | cons x xs ih =>
    by_cases h : p x
    · simp [h, ih]
    · simp [h, ih]

/-- Folding over a flatMap is the nested fold. -/
theorem foldl_flatMap {α β γ : Type} (g : γ → β → γ) (h : α → List β)
    (l : List α) (init : γ) :
    (l.flatMap h).foldl g init = l.foldl (fun st x => (h x).foldl g st) init := by
  induction l generalizing init with
  | nil => rfl
  | cons x xs ih => simp [List.flatMap_cons, List.foldl_append, ih]

/-- C10: one step of `intersect` admits exactly the edge pairs (l, r) with l
an edge label of the receiver node, r an edge label of the argument (query)
node, and l = r or r = `*`; in particular a `*` edge on the receiver is
matched only literally, never as a wildcard.  The first conjunct factors the
step function through `admittedPairs`, the second characterises membership in
`admittedPairs`. -/
theorem C10_intersect_admits_iff (s : Store) (f : TokenSet.IFrame) :
    (TokenSet.intersectStep s f =
      (admittedPairs (s.get f.qNode).edges (s.get f.node).edges).foldl
        (fun st pr => TokenSet.intersectPair st.1 f st.2 pr.1 pr.2) (s, [])) ∧
    (∀ qe ne : Char × Nat,
      (qe, ne) ∈ admittedPairs (s.get f.qNode).edges (s.get f.node).edges ↔
        (qe ∈ (s.get f.qNode).edges ∧ ne ∈ (s.get f.node).edges ∧
          (ne.1 = qe.1 ∨ qe.1 = '*'))) := by
  constructor
  · show
      ((s.get f.qNode).edges).foldl
        (fun (st : Store × List TokenSet.IFrame) qEdge =>
          ((s.get f.node).edges).foldl
            (fun st nEdge =>
              if nEdge.1 = qEdge.1 ∨ qEdge.1 = '*' then
                TokenSet.intersectPair st.1 f st.2 qEdge nEdge
              else st)
            st)
        (s, []) = _
    unfold admittedPairs
    rw [foldl_flatMap]
    congr 1
    funext st qe
    rw [List.foldl_map, ← foldl_guard]
  · intro qe ne
    simp only [admittedPairs, List.mem_flatMap, List.mem_map, List.mem_filter]
    constructor
    · rintro ⟨a, ha, b, ⟨hb, hcond⟩, heq⟩
      obtain ⟨h1, h2⟩ := Prod.mk.injEq .. ▸ heq
      subst h1; subst h2
      exact ⟨ha, hb, by simpa using hcond⟩
    · rintro ⟨hq, hn, hcond⟩
      exact ⟨qe, hq, ne, ⟨hn, by simpa using hcond⟩, rfl⟩

/-- C7 counterexample: the claim states that upsert with the default merge
sums on collision, the stored value becoming a + x.  But the merge function
the executor passes replaces a string-stored value by its `parseFloat`,
discarding x: upserting 2 at index 5 of a vector storing the string "3" at 5
leaves 3, not 5. -/
theorem C7_string_value_not_summed :
    ((Vector.mk 0 [JsNum.num 5, JsNum.str 3]).upsert 5 2
        (some queryVectorMerge)).elements = [JsNum.num 5, JsNum.num 3] ∧
      JsNum.num (3 : ℚ) ≠ JsNum.num (3 + 2) := by
  constructor
  · rfl
  · norm_num

/-- C7 amended: on a vector whose entries are sorted by index, `upsert` with
the merge function the query executor passes performs the declarative sorted
upsert: a collision on a numeric stored value a leaves `a + x` (so repeated
upserts of the same termIndex accumulate `clause.boost` by addition), a
collision on a string-stored value leaves its parsed numeric value
(discarding x), and a missing index splices `(i, x)` in at its sorted
position.  The magnitude cache is invalidated. -/
theorem C7_amended_upsert_sorted (ps : List (ℚ × JsNum)) (hs : pairsSorted ps)
    (i x : ℚ) (mag : ℚ) :
    ((Vector.mk mag (flatPairs ps)).upsert i x (some queryVectorMerge) =
      Vector.mk 0 (flatPairs (upsertPairs ps i x queryVectorMerge))) ∧
    (∀ a : ℚ, queryVectorMerge (.num a) x = .num (a + x)) ∧
    (∀ a : ℚ, queryVectorMerge (.str a) x = .num a) := by
  refine ⟨Vector.upsert_sorted ps hs i x queryVectorMerge mag, ?_, ?_⟩
  · intro a; rfl
  · intro a; rfl

/-- C7 witness: the amended theorem applied at a concrete sorted vector,
with both a collision (the boost at index 5 accumulates 7 + 3) and a fresh
index (1 is inserted before 5). -/
theorem C7_amended_upsert_sorted_witness :
    (((Vector.mk 0 (flatPairs [((5 : ℚ), JsNum.num 7)])).upsert 5 3
        (some queryVectorMerge) =
      Vector.mk 0 (flatPairs (upsertPairs [((5 : ℚ), JsNum.num 7)] 5 3
        queryVectorMerge))) ∧
     (∀ a : ℚ, queryVectorMerge (.num a) 3 = .num (a + 3)) ∧
     (∀ a : ℚ, queryVectorMerge (.str a) 3 = .num a)) ∧
    flatPairs (upsertPairs [((5 : ℚ), JsNum.num 7)] 5 3 queryVectorMerge) =
      [JsNum.num 5, JsNum.num 10] := by
  constructor
  · exact C7_amended_upsert_sorted [((5 : ℚ), JsNum.num 7)]
      (List.pairwise_singleton _ _) 5 3 0
  · show [JsNum.num 5, JsNum.num (7 + 3)] = [JsNum.num 5, JsNum.num 10]
    norm_num

/-- C4: the claim states that a fully negated query returns every document
of the index that is not excluded by a prohibited match, with score 0.
Refuted: the executor's `matches` accumulator is a plain `{}` object, so for
the document reference "constructor" the read `matches[docRef]` yields the
inherited `Object.prototype.constructor` instead of `undefined`, and the
executor dereferences `matchData` of that function and throws -- the query
fails instead of returning the (sole, non-excluded) document with score 0. -/
theorem C4_negated_query_throws_on_constructor_ref (sqrtFn : ℚ → ℚ) :
    LunrIndex.query 1000 sqrtFn C4idx C4fn =
      .error "TypeError: cannot read matchData of undefined" ∧
    ((C4fn (Query.new C4idx.fields)).toOption.map Query.isNegated) =
      some true := by
  exact ⟨rfl, rfl⟩

theorem C4_negated_query_throws_on_constructor_ref_witness :
    LunrIndex.query 1000 (fun q => q) C4idx C4fn =
      .error "TypeError: cannot read matchData of undefined" ∧
    ((C4fn (Query.new C4idx.fields)).toOption.map Query.isNegated) =
      some true :=
  C4_negated_query_throws_on_constructor_ref (fun q => q)

/-- C5: the claim states that after build, `averageFieldLength[f]` is the sum
of the `f`-lengths over the documents HAVING field `f`, divided by the number
of documents having `f`.  Refuted: `add` records a length (zero) for every
registered field of every document, so with documents d1 (title "x y") and d2
(no title) the code stores (2+0)/2 = 1 while the claimed formula gives
2/1 = 2. -/
theorem C5_missing_field_in_denominator :
    ∃ b2,
      ([⟨"d1".toList, [("title".toList, "x y".toList)]⟩,
        ⟨"d2".toList, []⟩].foldl (Builder.add wsSplit)
          { _fields := ["title".toList] }).calculateAverageFieldLengths =
        .ok b2 ∧
      b2.averageFieldLength.read "title".toList = .own (some 1) ∧
      Builder.claimAvgFieldLength wsSplit
        [⟨"d1".toList, [("title".toList, "x y".toList)]⟩, ⟨"d2".toList, []⟩]
        "title".toList = 2 ∧
      (1 : ℚ) ≠ 2 := by
  obtain ⟨b2, hcalc, hread⟩ := Builder.calcAvg_read wsSplit ["title".toList]
    [⟨"d1".toList, [("title".toList, "x y".toList)]⟩, ⟨"d2".toList, []⟩]
    "title".toList (by decide) (by decide) (by decide) (by decide) (by decide)
    (by decide)
  have h1 : docLen wsSplit ⟨"d1".toList, [("title".toList, "x y".toList)]⟩
      "title".toList = 2 := by decide
  have h2 : docLen wsSplit ⟨"d2".toList, []⟩ "title".toList = 0 := by decide
  refine ⟨b2, hcalc, ?_, ?_, by norm_num⟩
  · rw [hread]
    simp only [List.map_cons, List.map_nil, List.sum_cons, List.sum_nil,
      List.length_cons, List.length_nil, h1, h2]
    norm_num
  · unfold Builder.claimAvgFieldLength
    have hfl : ([⟨"d1".toList, [("title".toList, "x y".toList)]⟩,
        ⟨"d2".toList, []⟩] : List LunrDoc).filter
          (fun d => (d.fieldValue "title".toList).isSome) =
        [⟨"d1".toList, [("title".toList, "x y".toList)]⟩] := by decide
    rw [hfl]
    simp only [List.map_cons, List.map_nil, List.sum_cons, List.sum_nil,
      List.length_cons, List.length_nil, h1]
    norm_num

/-- C5 (amended): after a build run over documents with unique references
and slash-free, unique, prototype-clean registered field names,
`averageFieldLength[f]` equals the sum of the `f`-lengths over ALL documents
(a document lacking the field contributes 0) divided by the TOTAL number of
documents. -/
theorem C5_average_over_all_documents (proc : List Char → List (List Char))
    (fs : List (List Char)) (docs : List LunrDoc) (f : List Char)
    (hfs : ∀ g ∈ fs, '/' ∉ g) (hnd : fs.Nodup)
    (hrefs : (docs.map (·.refValue)).Nodup)
    (hf : f ∈ fs) (hfp : f ∉ protoKeys) (hdocs : docs ≠ []) :
    ∃ b2, (docs.foldl (Builder.add proc)
        { _fields := fs }).calculateAverageFieldLengths = .ok b2 ∧
      b2.averageFieldLength.read f =
        .own (some ((docs.map (fun d => (docLen proc d f : ℚ))).sum /
          (docs.length : ℚ))) :=
  Builder.calcAvg_read proc fs docs f hfs hnd hrefs hf hfp hdocs

theorem C5_average_over_all_documents_witness :
    ∃ b2, (([⟨"d1".toList, [("title".toList, "x y".toList)]⟩,
        ⟨"d2".toList, []⟩] : List LunrDoc).foldl (Builder.add wsSplit)
        { _fields := ["title".toList] }).calculateAverageFieldLengths =
        .ok b2 ∧
      b2.averageFieldLength.read "title".toList =
        .own (some ((([⟨"d1".toList, [("title".toList, "x y".toList)]⟩,
            ⟨"d2".toList, []⟩] : List LunrDoc).map
          (fun d => (docLen wsSplit d "title".toList : ℚ))).sum /
          ((([⟨"d1".toList, [("title".toList, "x y".toList)]⟩,
            ⟨"d2".toList, []⟩] : List LunrDoc).length : ℚ)))) :=
  C5_average_over_all_documents wsSplit ["title".toList]
    [⟨"d1".toList, [("title".toList, "x y".toList)]⟩, ⟨"d2".toList, []⟩]
    "title".toList (by decide) (by decide) (by decide) (by decide) (by decide)
    (by decide)

/-- C8: the claim states that field names equal to builtin member names
(such as "constructor") are stored and retrieved without confusion with
inherited attributes.  Refuted: with the single registered field
"constructor" and one document, `calculateAverageFieldLengths` reads the
inherited `Object.prototype.constructor` from its `{}`-created accumulator
objects, the truthiness test skips the zero-initialisation, and `+= `
produces non-numeric garbage, so `averageFieldLength["constructor"]` holds
garbage instead of the average (which is 1 for this corpus). -/
theorem C8_constructor_field_average_garbage :
    ((Builder.add wsSplit { _fields := ["constructor".toList] }
        ⟨"d1".toList, [("constructor".toList, "x".toList)]⟩
        |>.calculateAverageFieldLengths).map
      (fun b2 => b2.averageFieldLength.read "constructor".toList)).toOption =
      some (.own none) ∧
    ∀ q : ℚ,
      ((Builder.add wsSplit { _fields := ["constructor".toList] }
          ⟨"d1".toList, [("constructor".toList, "x".toList)]⟩
          |>.calculateAverageFieldLengths).map
        (fun b2 => b2.averageFieldLength.read "constructor".toList)).toOption ≠
        some (.own (some q)) := by
  have h1 : ((Builder.add wsSplit { _fields := ["constructor".toList] }
      ⟨"d1".toList, [("constructor".toList, "x".toList)]⟩
      |>.calculateAverageFieldLengths).map
      (fun b2 => b2.averageFieldLength.read "constructor".toList)).toOption =
      some (.own none) := by decide
  refine ⟨h1, fun q h => ?_⟩
  rw [h1] at h
  simp at h

/-- C9: the claim states that `search(s)` returns exactly the same result
list as `query(fn)` where `fn` parses `s` into the query via the query
parser.  Confirmed: `search` is defined as exactly that `query` invocation
(the callback builds the query by running the parser on the query string),
so the two calls agree for every index, query string, fuel, square-root
function and lexer. -/
theorem C9_search_eq_query_of_parse (fuel : Nat) (sqrtFn : ℚ → ℚ)
    (lexFn : List Char → List Lexeme) (idx : LunrIndex) (s : List Char) :
    LunrIndex.search fuel sqrtFn lexFn idx s =
      LunrIndex.query fuel sqrtFn idx
        (fun q => QueryParser.parse lexFn s q) := rfl

end ClaimTheorems

end Lunr
